import Mathlib

/-!
Verification development for the JMA weather scraper (scrape.py, validate.py).

The Python source is shallowly embedded: pure helpers become Lean functions,
filesystem state becomes explicit maps `String → Option String`, fallible
operations (exceptions) return `Option`, and pandas tables become lists of
typed rows.  Machine floats never carry program logic here (raw values stay
text until validation), so numeric coercion is modelled over `ℚ` with `none`
as the NaN missing sentinel.
-/

/-! ## Numeric coercion helpers (validate.py) -/

/-- Numeric value of a decimal digit character. -/
def digitVal (c : Char) : Nat := c.toNat - '0'.toNat

/-- Value of a list of decimal digit characters, most significant first. -/
def digitsToNat (cs : List Char) : Nat := cs.foldl (fun a c => 10 * a + digitVal c) 0

/-- Splits a character list on a separator character (used to model locating
the decimal point of a literal). -/
def splitOnChar (sep : Char) : List Char → List (List Char)
  | [] => [[]]
  | c :: t =>
    let r := splitOnChar sep t
    if c = sep then [] :: r
    else
      match r with
      | [] => [[c]]
      | h :: t2 => (c :: h) :: t2

/-- Models Python `float(value)` applied to the plain decimal literals that
occur in this dataset (optional sign, digits with an optional single decimal
point, at least one digit).  Returns `none` where `float` raises
`ValueError` (e.g. on `"--"` or `""`); the exact value is represented in `ℚ`.
Exponent/infinity/nan spellings never occur in the scraped raw values and are
not modelled. -/
def parseFloatQ (s : String) : Option ℚ :=
  let cs := s.data
  let sgnBody : Bool × List Char :=
    match cs with
    | '-' :: t => (true, t)
    | '+' :: t => (false, t)
    | _ => (false, cs)
  let neg := sgnBody.1
  let body := sgnBody.2
  let sgn : ℚ := if neg then -1 else 1
  match splitOnChar '.' body with
  | [ip] =>
    if ip ≠ [] ∧ ip.all (·.isDigit) then some (sgn * (digitsToNat ip : ℚ)) else none
  | [ip, fp] =>
    if (ip ++ fp) ≠ [] ∧ ip.all (·.isDigit) ∧ fp.all (·.isDigit) then
      some (sgn * ((digitsToNat ip : ℚ) + (digitsToNat fp : ℚ) / (10 ^ fp.length)))
    else none
  | _ => none

/-- Embeds validate.py `is_numeric`: whether `float(value)` succeeds. -/
def is_numeric (value : String) : Bool := (parseFloatQ value).isSome

/-- Embeds validate.py `to_numeric_safe`: `float(value)` with any
`ValueError`/`TypeError` turned into the NaN missing sentinel, modelled as
`none`. -/
def to_numeric_safe (value : String) : Option ℚ := parseFloatQ value

/-- Models Python `int(s)` on a plain digit string (used for `astype(int)`
on the hour column and for id fields); `none` models a raised `ValueError`. -/
def parseNat (s : String) : Option Nat :=
  if s.data ≠ [] ∧ s.data.all (·.isDigit) then some (digitsToNat s.data) else none

/-! ## Cache store (scrape.py `get_page`) -/

/-- A directory of loose cache files: filename to content, `none` = absent. -/
def FileStore := String → Option String

/-- Writing one file into a store. -/
def storeWrite (fs : FileStore) (name content : String) : FileStore :=
  fun k => if k = name then some content else fs k

/-- Embeds scrape.py `get_page`.  `netGet` models `requests.get(url).text`
for a successful response and `none` for a response on which
`raise_for_status` raises (which aborts the run, modelled by the outer
`none`).  The returned `Nat` counts network fetches performed by this call
(0 on a cache hit, 1 on a miss); the returned store is the cache directory
after the call.  The fixed `time.sleep(2.5)` is a pure delay with no state
effect and is not modelled. -/
def get_page (netGet : String → Option String) (fs : FileStore)
    (url cache_filename : String) : Option (String × FileStore × Nat) :=
  match fs cache_filename with
  | some content => some (content, fs, 0)
  | none =>
    match netGet url with
    | none => none
    | some content => some (content, storeWrite fs cache_filename content, 1)

/-! ## Archival manager (scrape.py `compress_impl` / `extract_impl`) -/

/-- Reads the listed loose cache files in order into archive entries
(filename, content); `none` models the exception raised by `tar.add` on a
missing file. -/
def readEntries (cache : FileStore) : List String → Option (List (String × String))
  | [] => some []
  | n :: t => do
    let c ← cache n
    let rest ← readEntries cache t
    some ((n, c) :: rest)

/-- Embeds scrape.py `compress_impl`: reads every listed loose cache file
into the new tar archive (in list order), and, when `remove_cache` is true,
deletes the loose originals afterwards.  The result is the archive's entry
list together with the cache directory afterwards. -/
def compress_impl (cache : FileStore) (cache_files : List String)
    (remove_cache : Bool) : Option (List (String × String) × FileStore) := do
  let entries ← readEntries cache cache_files
  some (entries,
    if remove_cache then (fun k => if k ∈ cache_files then none else cache k) else cache)

/-- Embeds scrape.py `extract_impl`: when the archive file is absent
(`none`), a no-op; otherwise every archive entry is written into the loose
cache directory (later entries overwriting earlier ones, as `extractall`
does). -/
def extract_impl (archive : Option (List (String × String))) (cache : FileStore) :
    FileStore :=
  match archive with
  | none => cache
  | some entries => entries.foldl (fun fs e => storeWrite fs e.1 e.2) cache

/-! ## Compression as an operation trace (for the failure-ordering claim)

scrape.py `compress_impl` is a straight-line sequence of effects: one
`tar.add` per listed file, then the close of the `with tarfile.open(...)`
block (the bundle write completing), then — only when `remove_cache` —
one `unlink` per file.  A crash mid-way executes a prefix of that trace. -/

/-- One primitive effect of `compress_impl`. -/
inductive TarOp where
  | add (filename : String)
  | closeArchive
  | unlink (filename : String)
deriving DecidableEq

/-- State touched by `compress_impl`: the archive being written and the
loose cache directory. -/
structure TarState where
  archive : List (String × String)
  cache : FileStore

/-- Effect of one primitive operation.  `add` reads the loose file into the
archive (missing file modelled as adding empty content; the failure case is
covered by `compress_impl` returning `none`), `unlink` deletes a loose file,
`closeArchive` completes the bundle write and does not touch the cache. -/
def runTarOp (st : TarState) : TarOp → TarState
  | TarOp.add n => { st with archive := st.archive ++ [(n, (st.cache n).getD "")] }
  | TarOp.closeArchive => st
  | TarOp.unlink n => { st with cache := fun k => if k = n then none else st.cache k }

/-- Runs a list of primitive operations in order. -/
def runTarOps (st : TarState) (ops : List TarOp) : TarState :=
  ops.foldl runTarOp st

/-- The effect trace of scrape.py `compress_impl`, in source order: all
`tar.add` calls, then the completion of the bundle write, then (when
`remove_cache`) the `unlink` calls. -/
def compressOps (cache_files : List String) (remove_cache : Bool) : List TarOp :=
  cache_files.map TarOp.add ++ [TarOp.closeArchive] ++
    (if remove_cache then cache_files.map TarOp.unlink else [])

/-! ## Observation parser (scrape.py `get_df_block_date`)

The day page's markup is embedded at the level BeautifulSoup exposes it to
the parser: a list of tables (`soup.find_all('table')`), each a list of rows
(`table.find_all('tr')`), each a list of cells (`row.find_all('td')`); a
cell carries its display text (`get_text()`) and its first embedded icon if
any (`cols[14].find('img')`), and an icon carries its optional `alt`
attribute (`img.get('alt')`, `none` when the attribute is absent). -/

/-- An `img` element: `alt` is its optional alt attribute. -/
structure ImgTag where
  alt : Option String
deriving DecidableEq

/-- A `td` cell: display text and first embedded `img` element, if any. -/
structure TdCell where
  text : String
  img : Option ImgTag
deriving DecidableEq

/-- A `tr` row: its `td` cells. -/
structure TrRow where
  cells : List TdCell
deriving DecidableEq

/-- An html table: its `tr` rows. -/
structure HtmlTable where
  rows : List TrRow
deriving DecidableEq

/-- Out-of-range cell accesses never happen on 17-cell rows; this default
keeps the embedding total. -/
def defaultCell : TdCell := ⟨"", none⟩

/-- Fuelled decimal rendering of a natural number (digit characters, most
significant first); the fuel is always sufficient at `n + 1`. -/
def natDigitsAux : Nat → Nat → List Char
  | 0, _ => []
  | fuel + 1, n =>
    if n < 10 then [Nat.digitChar n]
    else natDigitsAux fuel (n / 10) ++ [Nat.digitChar (n % 10)]

/-- Decimal digit characters of `n`, most significant first. -/
def natDigits (n : Nat) : List Char := natDigitsAux (n + 1) n

/-- Models the Python f-string fragment for a plain int (unpadded decimal). -/
def pyNatStr (n : Nat) : String := ⟨natDigits n⟩

/-- Models a Python two-digit zero-padded format item such as `{month:02}`
for arguments below 100 (month and day always are). -/
def fmt2chars (n : Nat) : List Char := [Nat.digitChar (n / 10 % 10), Nat.digitChar (n % 10)]

/-- Models the f-string for the 年月日 column of scrape.py line 175:
year unpadded, month and day zero-padded to two digits. -/
def dateStr8 (year month day : Nat) : String :=
  ⟨natDigits year ++ fmt2chars month ++ fmt2chars day⟩

/-- One parsed hourly observation row (the dict appended at scrape.py lines
172-184).  Field names romanize the source's column labels: prec_no 地域番号,
block_no 地点番号, date 年月日, hour 時, precip 降水量, temp 気温, humid 湿度,
wind 風速, snowfall 降雪, snow 積雪, weather 天気. -/
structure Obs where
  prec_no : Nat
  block_no : Nat
  date : String
  hour : String
  precip : String
  temp : String
  humid : String
  wind : String
  snowfall : String
  snow : String
  weather : Option String
deriving DecidableEq

/-- Embeds the per-row dict construction of scrape.py lines 171-183: fixed
cell indices 0, 3, 4, 7, 8, 12, 13 for the raw text values, and the weather
label from the index-14 cell's icon — the empty string when no icon is
present, otherwise the icon's optional alt text. -/
def rowToObs (prec_no block_no : Nat) (date : String) (row : TrRow) : Obs :=
  let cols := row.cells
  { prec_no := prec_no
    block_no := block_no
    date := date
    hour := (cols.getD 0 defaultCell).text
    precip := (cols.getD 3 defaultCell).text
    temp := (cols.getD 4 defaultCell).text
    humid := (cols.getD 7 defaultCell).text
    wind := (cols.getD 8 defaultCell).text
    snowfall := (cols.getD 12 defaultCell).text
    snow := (cols.getD 13 defaultCell).text
    weather :=
      match (cols.getD 14 defaultCell).img with
      | none => some ""
      | some i => i.alt }

/-- Embeds the parsing loop of scrape.py `get_df_block_date` (lines
157-185), applied to the already-parsed markup of the fetched page: every
table with exactly 26 rows contributes one observation per row with exactly
17 cells, in document order. -/
def get_df_block_date (prec_no block_no year month day : Nat)
    (tables : List HtmlTable) : List Obs :=
  (tables.filter (fun t => t.rows.length = 26)).bind
    (fun t => (t.rows.filter (fun r => r.cells.length = 17)).map
      (rowToObs prec_no block_no (dateStr8 year month day)))

/-- The (region id, station id, date, hour) quadruple of an observation. -/
def obsKey (o : Obs) : Nat × Nat × String × String := (o.prec_no, o.block_no, o.date, o.hour)

/-- Concrete test markup: a 26-row table whose 24 data rows carry
pairwise-distinct hour texts "1".."24". -/
def hoursTable : HtmlTable :=
  ⟨(List.range 24).map (fun i => ⟨⟨pyNatStr (i + 1), none⟩ :: List.replicate 16 defaultCell⟩) ++
    List.replicate 2 ⟨[]⟩⟩

/-- Concrete test markup: a 26-row table with 24 uniform 17-cell data rows
(hour text "1") and two cell-less rows. -/
def uniformTable : HtmlTable :=
  ⟨List.replicate 24 ⟨List.replicate 17 ⟨"1", none⟩⟩ ++ List.replicate 2 ⟨[]⟩⟩

/-- Concrete test markup: a 17-cell data row whose index-14 cell has an icon
without an alt attribute. -/
def noAltRow : TrRow :=
  ⟨List.replicate 14 defaultCell ++ [⟨"", some ⟨none⟩⟩] ++ List.replicate 2 defaultCell⟩

/-- Concrete test markup: a 17-cell data row whose index-14 cell has an icon
whose alt attribute is present but empty. -/
def emptyAltRow : TrRow :=
  ⟨List.replicate 14 defaultCell ++ [⟨"", some ⟨some ""⟩⟩] ++ List.replicate 2 defaultCell⟩

/-! ## Calendar dates (Python `datetime` model, for scrape.py `get_dates`)

Python's `datetime` arithmetic over whole days is proleptic-Gregorian:
`start + timedelta(days=i)` is the i-fold calendar successor of `start`, and
`(end - start).days` is the difference of the dates' ordinals.  Both sides
are modelled below: `nextDate` is the calendar successor and `toOrdinal`
counts days since 0001-01-01 (the rata-die ordinal minus one). -/

/-- A calendar date. -/
structure Date where
  year : Nat
  month : Nat
  day : Nat
deriving DecidableEq

/-- Gregorian leap-year rule. -/
def isLeap (y : Nat) : Bool := decide ((y % 4 = 0 ∧ ¬ y % 100 = 0) ∨ y % 400 = 0)

/-- Length of a month in a given year. -/
def daysInMonth (y m : Nat) : Nat :=
  if m = 2 then (if isLeap y then 29 else 28)
  else if m = 4 ∨ m = 6 ∨ m = 9 ∨ m = 11 then 30
  else 31

/-- Validity of a calendar date (the `datetime` constructor's checks, minus
its 9999 upper year bound which is tracked separately where needed). -/
def ValidDate (d : Date) : Prop :=
  1 ≤ d.year ∧ 1 ≤ d.month ∧ d.month ≤ 12 ∧ 1 ≤ d.day ∧ d.day ≤ daysInMonth d.year d.month

instance : DecidablePred ValidDate := fun d => by unfold ValidDate; infer_instance

/-- Days in all years strictly before year `y`. -/
def daysBeforeYear (y : Nat) : Nat :=
  365 * (y - 1) + ((y - 1) / 4 - (y - 1) / 100 + (y - 1) / 400)

/-- Days in all months of year `y` strictly before month `m`. -/
def daysBeforeMonth (y m : Nat) : Nat :=
  let l : Nat := if isLeap y then 1 else 0
  match m with
  | 1 => 0
  | 2 => 31
  | 3 => 59 + l
  | 4 => 90 + l
  | 5 => 120 + l
  | 6 => 151 + l
  | 7 => 181 + l
  | 8 => 212 + l
  | 9 => 243 + l
  | 10 => 273 + l
  | 11 => 304 + l
  | 12 => 334 + l
  | _ => 0

/-- Days since 0001-01-01 (so the epoch has ordinal 0). -/
def toOrdinal (d : Date) : Nat :=
  daysBeforeYear d.year + daysBeforeMonth d.year d.month + (d.day - 1)

/-- The calendar successor of a date. -/
def nextDate (d : Date) : Date :=
  if d.day < daysInMonth d.year d.month then ⟨d.year, d.month, d.day + 1⟩
  else if d.month < 12 then ⟨d.year, d.month + 1, 1⟩
  else ⟨d.year + 1, 1, 1⟩

/-- Four-digit zero-padded rendering (the `%Y` field for the four-digit
years this pipeline handles). -/
def fmt4chars (n : Nat) : List Char :=
  [Nat.digitChar (n / 1000 % 10), Nat.digitChar (n / 100 % 10),
   Nat.digitChar (n / 10 % 10), Nat.digitChar (n % 10)]

/-- Models `strftime('%Y-%m-%d')` on dates with four-digit years. -/
def formatDate (d : Date) : String :=
  ⟨fmt4chars d.year ++ '-' :: fmt2chars d.month ++ '-' :: fmt2chars d.day⟩

/-- Python string slicing `s[:7]` (by code points). -/
def pySlice7 (s : String) : String := ⟨s.data.take 7⟩

/-- The year-month key of a date as the source derives it (the first seven
characters of the formatted date). -/
def ymKey (d : Date) : String := ⟨fmt4chars d.year ++ '-' :: fmt2chars d.month⟩

/-- Models `datetime.strptime(s, '%Y-%m-%d')`: one-to-four year digits, a
dash, one-or-two month digits, a dash, one-or-two day digits, end of input,
followed by the `datetime` constructor's calendar validation with its
1..9999 year range. -/
def parseYmd (s : String) : Option Date :=
  let cs := s.data
  let ys := cs.takeWhile (·.isDigit)
  let r1 := cs.dropWhile (·.isDigit)
  if ys.length < 1 ∨ 4 < ys.length then none
  else
    match r1 with
    | '-' :: r2 =>
      let ms := r2.takeWhile (·.isDigit)
      let r3 := r2.dropWhile (·.isDigit)
      if ms.length < 1 ∨ 2 < ms.length then none
      else
        match r3 with
        | '-' :: r4 =>
          let ds := r4.takeWhile (·.isDigit)
          let r5 := r4.dropWhile (·.isDigit)
          if ds.length < 1 ∨ 2 < ds.length then none
          else if r5 ≠ [] then none
          else
            let d : Date := ⟨digitsToNat ys, digitsToNat ms, digitsToNat ds⟩
            if ValidDate d ∧ d.year ≤ 9999 then some d else none
        | _ => none
    | _ => none

/-- Python dict insertion as `get_dates` uses it: `if ym not in dic:
dic[ym] = []` followed by `dic[ym].append(date)`, over an insertion-ordered
association list. -/
def dicInsert (ym date : String) : List (String × List String) → List (String × List String)
  | [] => [(ym, [date])]
  | (k, ds) :: rest =>
    if k = ym then (k, ds ++ [date]) :: rest else (k, ds) :: dicInsert ym date rest

/-- The loop body of scrape.py `get_dates`: for `i` in `range count`, format
`start + timedelta(days=i)`, key it by its first seven characters, and
insert it into the dict. -/
def buildDic (s : Date) (count : Nat) : List (String × List String) :=
  (List.range count).foldl
    (fun dic i =>
      let date := formatDate (nextDate^[i] s)
      dicInsert (pySlice7 date) date dic) []

/-- Embeds scrape.py `get_dates` (lines 197-208): parse both bounds with
`strptime`, iterate `(end - start).days + 1` times (never, when that is not
positive), and bucket each formatted date under its `date[:7]` key. -/
def get_dates (start_date end_date : String) : Option (List (String × List String)) := do
  let s ← parseYmd start_date
  let e ← parseYmd end_date
  let n : Int := (toOrdinal e : Int) - (toOrdinal s : Int)
  some (buildDic s (n + 1).toNat)

/-- The inclusive calendar-date sequence starting at `s` and spanning
`count` days: consecutive calendar successors. -/
def dateSeq (s : Date) (count : Nat) : List Date :=
  (List.range count).map (fun i => nextDate^[i] s)

/-- Lexicographic order on the (year, month) components of dates; the
year-month keys of consecutive dates are nondecreasing in this order. -/
def ymLe (d1 d2 : Date) : Prop :=
  d1.year < d2.year ∨ (d1.year = d2.year ∧ d1.month ≤ d2.month)

/-! ## Station resolver (scrape.py `get_master`)

The remote hierarchy is embedded at the level BeautifulSoup exposes it: the
prefecture page's `area` tags (each with optional `href` and `alt`
attributes) and, per prefecture number, that prefecture page's `area` tags
(each with an optional `onmouseover` attribute).  The fetching itself goes
through the cache store and is covered by `get_page`. -/

/-- An `area` tag with the attributes `get_master` reads; a missing
attribute is `none` (BeautifulSoup `get` semantics). -/
structure AreaTag where
  href : Option String
  alt : Option String
  onmouseover : Option String
deriving DecidableEq

/-- The already-fetched remote hierarchy: the prefecture-list page's area
tags and each prefecture page's area tags. -/
structure Hierarchy where
  precsPage : List AreaTag
  blocksPage : Nat → List AreaTag

/-- The curated allow-list of `prec_name::block_name` targets
(scrape.py lines 34-48). -/
def prec_blocks_target : List String := [
  "石狩地方::札幌", "青森県::青森", "秋田県::秋田", "岩手県::盛岡", "宮城県::仙台",
  "山形県::山形", "福島県::福島", "茨城県::水戸", "栃木県::宇都宮", "群馬県::前橋",
  "埼玉県::熊谷", "東京都::東京", "千葉県::千葉", "神奈川県::横浜", "長野県::長野",
  "山梨県::甲府", "静岡県::静岡", "愛知県::名古屋", "岐阜県::岐阜", "三重県::津",
  "新潟県::新潟", "富山県::富山", "石川県::金沢", "福井県::福井", "滋賀県::彦根",
  "京都府::京都", "大阪府::大阪", "兵庫県::神戸", "奈良県::奈良", "和歌山県::和歌山",
  "岡山県::岡山", "広島県::広島", "島根県::松江", "鳥取県::鳥取", "徳島県::徳島",
  "香川県::高松", "愛媛県::松山", "高知県::高知", "山口県::山口", "福岡県::福岡",
  "大分県::大分", "長崎県::長崎", "佐賀県::佐賀", "熊本県::熊本", "宮崎県::宮崎",
  "鹿児島県::鹿児島", "沖縄県::那覇"
]

/-- The fixed transliteration table (scrape.py lines 49-60). -/
def dict_block_name_en : List (String × String) := [
  ("札幌", "sapporo"), ("青森", "aomori"), ("秋田", "akita"), ("盛岡", "morioka"),
  ("仙台", "sendai"), ("山形", "yamagata"), ("福島", "fukushima"), ("水戸", "mito"),
  ("宇都宮", "utsunomiya"), ("前橋", "maebashi"), ("熊谷", "kumagaya"), ("東京", "tokyo"),
  ("千葉", "chiba"), ("横浜", "yokohama"), ("長野", "nagano"), ("甲府", "kofu"),
  ("静岡", "shizuoka"), ("名古屋", "nagoya"), ("岐阜", "gifu"), ("津", "tsu"),
  ("新潟", "niigata"), ("富山", "toyama"), ("金沢", "kanazawa"), ("福井", "fukui"),
  ("彦根", "hikone"), ("京都", "kyoto"), ("大阪", "osaka"), ("神戸", "kobe"),
  ("奈良", "nara"), ("和歌山", "wakayama"), ("岡山", "okayama"), ("広島", "hiroshima"),
  ("松江", "matsue"), ("鳥取", "tottori"), ("徳島", "tokushima"), ("高松", "takamatsu"),
  ("松山", "matsuyama"), ("高知", "kochi"), ("山口", "yamaguchi"), ("福岡", "fukuoka"),
  ("大分", "oita"), ("長崎", "nagasaki"), ("佐賀", "saga"), ("熊本", "kumamoto"),
  ("宮崎", "miyazaki"), ("鹿児島", "kagoshima"), ("那覇", "naha")
]

/-- Dict lookup in the transliteration table; `none` models the `KeyError`
that scrape.py treats as fatal. -/
def lookupEn (name : String) : Option String :=
  (dict_block_name_en.find? (fun p => p.1 = name)).map Prod.snd

/-- Python slicing `x[1:-1]` (drop the first and last code point). -/
def pyStrip1 (x : String) : String := ⟨(x.data.drop 1).dropLast⟩

/-- Fuelled splitting of a character list on a non-overlapping separator
occurrence, left to right (the fuel is always sufficient at `length + 1`).
Written with structural fuel so that it evaluates inside the kernel. -/
def splitOnAuxF (sep : List Char) : Nat → List Char → List (List Char)
  | _, [] => [[]]
  | 0, l => [l]
  | fuel + 1, c :: t =>
    if sep.isPrefixOf (c :: t) then
      [] :: splitOnAuxF sep fuel ((c :: t).drop sep.length)
    else
      match splitOnAuxF sep fuel t with
      | [] => [c :: t]
      | h :: r => (c :: h) :: r

/-- Models Python `s.split(sep)` for a non-empty separator. -/
def pySplit (s sep : String) : List String :=
  (splitOnAuxF sep.data (s.data.length + 1) s.data).map (fun l => ⟨l⟩)

/-- Models `int(prec.get('href').split('prec_no=')[1].split('&')[0])`
(scrape.py line 228); `none` models the exception on a missing separator or
a non-numeric id. -/
def parsePrecNo (href : String) : Option Nat := do
  let s1 ← (pySplit href "prec_no=").get? 1
  let s2 ← (pySplit s1 "&").get? 0
  parseNat s2

/-- Models the field extraction of scrape.py line 239-240:
`s.split('(')[1].split(')')[0].split(',')` with each field stripped of its
first and last character. -/
def parseBlockFields (s : String) : Option (List String) := do
  let s1 ← (pySplit s "(").get? 1
  let s2 ← (pySplit s1 ")").get? 0
  some ((pySplit s2 ",").map pyStrip1)

/-- One row of the master table (scrape.py lines 218-226, 254-262).  Field
names romanize the source's column labels; coordinates are exact rationals
for `float(deg) + float(min) / 60.0`. -/
structure MRow where
  prec_no : Nat
  prec_name : String
  block_no : Nat
  block_name : String
  block_name_en : String
  lat : ℚ
  lng : ℚ
deriving DecidableEq

/-- A station candidate: a block entry that passed the kind filter, parsed,
and matched the curated allow-list — before deduplication and before the
transliteration lookup. -/
structure Cand where
  prec_no : Nat
  prec_name : String
  block_no : Nat
  block_name : String
  lat : ℚ
  lng : ℚ
deriving DecidableEq

/-- The composite key `prec_name::block_name` of a candidate. -/
def candKey (c : Cand) : String := c.prec_name ++ "::" ++ c.block_name

/-- The composite key of a master row. -/
def mrowKey (r : MRow) : String := r.prec_name ++ "::" ++ r.block_name

/-- A master row without its transliterated name. -/
def mrowToCand (r : MRow) : Cand :=
  ⟨r.prec_no, r.prec_name, r.block_no, r.block_name, r.lat, r.lng⟩

/-- Parses one block `area` tag as scrape.py lines 236-249 do, up to (and
including) the allow-list membership test: `some none` is a skipped tag
(missing `onmouseover`, non-observatory kind, or composite key not in the
allow-list), `none` a raised exception (missing field, failed int/float
parse, or a `None` prefecture name reaching string concatenation). -/
def parseBlockCand (prec_no : Nat) (prec_alt : Option String) (b : AreaTag) :
    Option (Option Cand) :=
  match b.onmouseover with
  | none => some none
  | some s =>
    match parseBlockFields s with
    | none => none
    | some li =>
      match li.get? 0 with
      | none => none
      | some kind =>
        if kind ≠ "s" then some none
        else
          match li.get? 1 with
          | none => none
          | some s1 =>
            match parseNat s1 with
            | none => none
            | some block_no =>
              match li.get? 2 with
              | none => none
              | some block_name =>
                match li.get? 4, li.get? 5, li.get? 6, li.get? 7 with
                | some a4, some a5, some a6, some a7 =>
                  match parseFloatQ a4, parseFloatQ a5, parseFloatQ a6, parseFloatQ a7 with
                  | some latd, some latm, some lngd, some lngm =>
                    match prec_alt with
                    | none => none
                    | some prec_name =>
                      let c : Cand := ⟨prec_no, prec_name, block_no, block_name,
                        latd + latm / 60, lngd + lngm / 60⟩
                      if candKey c ∈ prec_blocks_target then some (some c) else some none
                  | _, _, _, _ => none
                | _, _, _, _ => none

/-- State of the `get_master` loop: the dedup set (insertion-ordered, used
only for membership) and the master rows built so far. -/
structure GMState where
  seen : List String
  rows : List MRow

/-- Processing of one block tag inside `get_master`: skipped tags leave the
state unchanged; an accepted candidate is dropped when its composite key was
already seen, and otherwise looked up in the transliteration table (fatal
when absent) and appended. -/
def processBlockGM (prec_no : Nat) (prec_alt : Option String) (st : GMState) (b : AreaTag) :
    Option GMState :=
  match parseBlockCand prec_no prec_alt b with
  | none => none
  | some none => some st
  | some (some c) =>
    if candKey c ∈ st.seen then some st
    else
      match lookupEn c.block_name with
      | none => none
      | some en =>
        some ⟨st.seen ++ [candKey c],
          st.rows ++ [⟨c.prec_no, c.prec_name, c.block_no, c.block_name, en, c.lat, c.lng⟩]⟩

/-- Processing of one prefecture tag inside `get_master`: parse its id from
the href, skip the Antarctic placeholder, and fold over its block tags. -/
def processPrecGM (blocksPage : Nat → List AreaTag) (st : GMState) (p : AreaTag) :
    Option GMState :=
  match p.href with
  | none => none
  | some href =>
    match parsePrecNo href with
    | none => none
    | some prec_no =>
      if p.alt = some "南極" then some st
      else (blocksPage prec_no).foldlM (processBlockGM prec_no p.alt) st

/-- Embeds scrape.py `get_master` (lines 211-265) applied to the
already-fetched hierarchy pages; the CSV write is outside the model. -/
def get_master (H : Hierarchy) : Option (List MRow) := do
  let st ← H.precsPage.foldlM (processPrecGM H.blocksPage) ⟨[], []⟩
  some st.rows

/-- The same traversal without the dedup filter and without the
transliteration lookup: all allow-listed observatory candidates in
encounter order. -/
def processBlockCL (prec_no : Nat) (prec_alt : Option String) (acc : List Cand) (b : AreaTag) :
    Option (List Cand) :=
  match parseBlockCand prec_no prec_alt b with
  | none => none
  | some none => some acc
  | some (some c) => some (acc ++ [c])

/-- Candidate traversal of one prefecture tag. -/
def processPrecCL (blocksPage : Nat → List AreaTag) (acc : List Cand) (p : AreaTag) :
    Option (List Cand) :=
  match p.href with
  | none => none
  | some href =>
    match parsePrecNo href with
    | none => none
    | some prec_no =>
      if p.alt = some "南極" then some acc
      else (blocksPage prec_no).foldlM (processBlockCL prec_no p.alt) acc

/-- All station candidates of a hierarchy in encounter order (before
deduplication). -/
def stationCandidates (H : Hierarchy) : Option (List Cand) :=
  H.precsPage.foldlM (processPrecCL H.blocksPage) []

/-- First-match-wins deduplication of candidates by composite key, starting
from an already-seen key set. -/
def dedupByKey (seen : List String) : List Cand → List Cand
  | [] => []
  | c :: t =>
    if candKey c ∈ seen then dedupByKey seen t
    else c :: dedupByKey (seen ++ [candKey c]) t

/-- Transliteration of a candidate list into master rows; `none` when any
block name is missing from the table. -/
def enrichRows : List Cand → Option (List MRow)
  | [] => some []
  | c :: t =>
    match lookupEn c.block_name with
    | none => none
    | some en =>
      (enrichRows t).map
        (fun rs => ⟨c.prec_no, c.prec_name, c.block_no, c.block_name, en, c.lat, c.lng⟩ :: rs)

/-! ## Validation export (validate.py `reshape_weather`, `validate_column`)

validate.py reads both CSVs with `dtype=str`, so ids and raw values are
strings; a long-format weather row carries its variable columns as an
association list from the Japanese column name to the raw text. -/

/-- One row of the long-format weather table as validate.py reads it.
Field names romanize the source's columns: prec_no 地域番号, block_no
地点番号, date 年月日 (8-digit), hour 時; `vals` holds the variable columns
(e.g. 気温). -/
structure VRow where
  prec_no : String
  block_no : String
  date : String
  hour : String
  vals : List (String × String)
deriving DecidableEq

/-- The master-table columns validate.py uses (地域番号, 地点番号,
地点名英字), as strings. -/
structure VMaster where
  prec_no : String
  block_no : String
  block_name_en : String
deriving DecidableEq

/-- Column access on a weather row; `none` models a `KeyError`. -/
def vGetCol (r : VRow) (c : String) : Option String :=
  (r.vals.find? (fun p => p.1 = c)).map Prod.snd

/-- The variable-abbreviation table of validate.py lines 10-17 (spelling of
the source name kept). -/
def dict_valiable_name_en : List (String × String) := [
  ("気温", "temp"), ("湿度", "humid"), ("降水量", "precip"),
  ("風速", "wind"), ("降雪", "snowfall"), ("積雪", "snow")]

/-- Abbreviation lookup; `none` models a `KeyError`. -/
def lookupVarEn (v : String) : Option String :=
  (dict_valiable_name_en.find? (fun p => p.1 = v)).map Prod.snd

/-- Models `pd.to_datetime(s, format=..YmD..)` on the 8-digit 年月日
column; `none` models the raised error on malformed input. -/
def parse8 (s : String) : Option Date :=
  match s.data with
  | [a, b, c, d, e, f, g, h2] =>
    if [a, b, c, d, e, f, g, h2].all (·.isDigit) then
      let dt : Date := ⟨digitsToNat [a, b, c, d], digitsToNat [e, f], digitsToNat [g, h2]⟩
      if ValidDate dt then some dt else none
    else none
  | _ => none

/-- The timestamp derived for a weather row: date plus hour offset, counted
in hours.  `none` models `astype(int)` or `to_datetime` raising. -/
def rowTs (r : VRow) : Option Nat := do
  let h ← parseNat r.hour
  let d ← parse8 r.date
  some (toOrdinal d * 24 + h)

/-- The station column label for a row via
`dict(zip(master[地点番号], master[地点名英字]))`: keyed by station id
alone, later master rows overwriting earlier ones; `none` models a station
id absent from the master (a NaN label, which no claim exercises and which
the embedding treats as failure). -/
def rowBlockName (master : List VMaster) (r : VRow) : Option String :=
  ((master.filter (fun m => m.block_no = r.block_no)).getLast?).map (·.block_name_en)

/-- Ascending sorted distinct timestamps (`sorted(... .unique())`). -/
def sortDedupNat (l : List Nat) : List Nat := l.dedup.insertionSort (· ≤ ·)

/-- Lexicographic (code-point) comparison of character lists. -/
def charListLt : List Char → List Char → Bool
  | [], [] => false
  | [], _ :: _ => true
  | _ :: _, [] => false
  | a :: as, b :: bs =>
    if a.toNat < b.toNat then true
    else if b.toNat < a.toNat then false
    else charListLt as bs

/-- Ascending sorted distinct column labels (pandas `pivot` sorts its
column labels lexicographically). -/
def sortDedupStr (l : List String) : List String :=
  l.dedup.insertionSort (fun a b => charListLt b.data a.data = false)

/-- Embeds validate.py `reshape_weather` (lines 52-66): derive a timestamp
per row, coerce each requested variable to numeric with the NaN sentinel,
map station ids to transliterated labels, and build the wide table — one
row per distinct ascending timestamp, one column `abbr_station` per
(variable, station) pair, left-joined on timestamp.  The result is the
header (column names) with the data rows; `none` models the exceptions of
the source (bad hour/date text, missing variable column, pandas `pivot` on
duplicate (timestamp, station) pairs). -/
def reshape_weather (weather : List VRow) (master : List VMaster)
    (vars : List String) :
    Option (List String × List (Nat × List (Option ℚ))) := do
  let tss ← weather.mapM rowTs
  let _ ← weather.mapM (fun r => vars.mapM (fun v => vGetCol r v))
  let names ← weather.mapM (rowBlockName master)
  let rowsN := List.zipWith (fun rt n => (rt.1, rt.2, n)) (List.zip weather tss) names
  let timestamps := sortDedupNat (rowsN.map (fun x => x.2.1))
  let header ← vars.mapM (fun v => (lookupVarEn v).map (fun ab => (v, ab)))
  let colNames := sortDedupStr (rowsN.map (fun x => x.2.2))
  if (rowsN.map (fun x => (x.2.1, x.2.2))).Nodup then
    some ("timestamp" :: header.bind (fun va => colNames.map (fun n => va.2 ++ "_" ++ n)),
      timestamps.map (fun ts =>
        (ts, header.bind (fun va => colNames.map (fun n =>
          match rowsN.find? (fun x => x.2.1 = ts ∧ x.2.2 = n) with
          | none => none
          | some x => (vGetCol x.1 va.1).bind to_numeric_safe)))))
  else none

/-- Embeds the `output_valid` branch of validate.py `validate_column`
(lines 83-128, excluding the printed report): the left merge with the
master, the per-row numeric-validity flags, the invalid-station set, the
`valid_weather` restriction and its station count `n_blocks` (used in the
output filename) — and the written table, which the source produces as
`reshape_weather(weather, master, [column])` over the full merged frame,
not over `valid_weather`.  Returns `n_blocks` with the written table. -/
def validate_column_export (weather : List VRow) (master : List VMaster)
    (column : String) :
    Option (Nat × (List String × List (Nat × List (Option ℚ)))) := do
  let merged := weather.bind (fun r =>
    match master.filter (fun m => m.prec_no = r.prec_no ∧ m.block_no = r.block_no) with
    | [] => [(r, (none : Option String))]
    | ms => ms.map (fun m => (r, some m.block_name_en)))
  let valids ← merged.mapM (fun rm => (vGetCol rm.1 column).map (fun v => (rm.1, is_numeric v)))
  let invalid_blocks := ((valids.filter (fun x => ¬ x.2)).map
      (fun x => (x.1.prec_no, x.1.block_no))).dedup
  let valid_weather := valids.filter
      (fun x => ¬ ((x.1.prec_no, x.1.block_no) ∈ invalid_blocks))
  let n_blocks := (valid_weather.map (fun x => (x.1.prec_no, x.1.block_no))).dedup.length
  let tbl ← reshape_weather (merged.map Prod.fst) master [column]
  some (n_blocks, tbl)

/-- Concrete test hierarchy: one prefecture whose page carries two
observatory entries with the same composite key 石狩地方::札幌. -/
def sampleHierarchy : Hierarchy where
  precsPage := [⟨some "prefecture.php?prec_no=14&volcano=0", some "石狩地方", none⟩]
  blocksPage := fun n =>
    if n = 14 then
      [⟨none, none, some "javascript:viewPoint(\x27s\x27,\x2747412\x27,\x27札幌\x27,\x27SAPPORO\x27,\x2743\x27,\x273\x27,\x27141\x27,\x2719\x27,\x2717\x27,\x276\x27,\x271\x27,\x271\x27)"⟩,
       ⟨none, none, some "javascript:viewPoint(\x27s\x27,\x2747413\x27,\x27札幌\x27,\x27SAPPORO\x27,\x2743\x27,\x274\x27,\x27141\x27,\x2720\x27,\x2717\x27,\x276\x27,\x271\x27,\x271\x27)"⟩]
    else []

/-! ## Theorems: numeric coercion, cache store, archival manager -/

/-- C9: validate.py `to_numeric_safe` is total — every input yields either
the missing sentinel or a number, never an exception — and the raw value
`"--"` and the empty string map to the missing sentinel while `"12.3"` maps
to the number 12.3. -/
theorem to_numeric_safe_total_and_sentinels :
    (∀ v : String, to_numeric_safe v = none ∨ ∃ q : ℚ, to_numeric_safe v = some q) ∧
    to_numeric_safe "--" = none ∧ to_numeric_safe "" = none ∧
    to_numeric_safe "12.3" = some (123 / 10) := by
  refine ⟨fun v => ?_, by decide, by decide, ?_⟩
  · cases h : to_numeric_safe v with
    | none => exact Or.inl rfl
    | some q => exact Or.inr ⟨q, rfl⟩
  · have h1 : to_numeric_safe "12.3" =
        some ((1 : ℚ) * ((digitsToNat ['1', '2'] : ℚ) +
          (digitsToNat ['3'] : ℚ) / (10 ^ ([('3' : Char)].length)))) := rfl
    have h2 : digitsToNat ['1', '2'] = 12 := rfl
    have h3 : digitsToNat ['3'] = 3 := rfl
    rw [h1, h2, h3]
    norm_num

/-- C4: scrape.py `get_page` fetches once and caches: on a cold cache the
first call performs exactly one network fetch, persists the response
verbatim, and returns it; a second call with no intervening compression
returns the identical stored content with zero network fetches and leaves
the store unchanged. -/
theorem get_page_fetch_once (netGet : String → Option String) (fs : FileStore)
    (url key content : String)
    (hmiss : fs key = none) (hnet : netGet url = some content) :
    ∃ fs1, get_page netGet fs url key = some (content, fs1, 1) ∧
      fs1 key = some content ∧
      get_page netGet fs1 url key = some (content, fs1, 0) := by
  refine ⟨storeWrite fs key content, ?_, ?_, ?_⟩
  · simp [get_page, hmiss, hnet]
  · simp [storeWrite]
  · have h1 : storeWrite fs key content key = some content := by simp [storeWrite]
    simp [get_page, h1]

/-- Witness for C4 at a concrete cold store. -/
theorem get_page_fetch_once_witness :
    ∃ fs1, get_page (fun _ => some "HTML") (fun _ => none) "u" "k" = some ("HTML", fs1, 1) ∧
      fs1 "k" = some "HTML" ∧
      get_page (fun _ => some "HTML") fs1 "u" "k" = some ("HTML", fs1, 0) :=
  get_page_fetch_once (fun _ => some "HTML") (fun _ => none) "u" "k" "HTML" rfl rfl

/-- Reading every listed file of a store succeeds exactly as the map of the
stored contents when all files exist. -/
theorem readEntries_eq_map (cache : FileStore) (files : List String)
    (h : ∀ n ∈ files, (cache n).isSome) :
    readEntries cache files = some (files.map (fun n => (n, (cache n).getD ""))) := by
  induction files with
  | nil => rfl
  | cons a t ih =>
    obtain ⟨c, hc⟩ := Option.isSome_iff_exists.mp (h a (by simp))
    have ht := ih (fun n hn => h n (by simp [hn]))
    simp [readEntries, hc, ht]

/-- Writing a list of entries whose contents are a function of their names
makes lookups of written names return that function, and leaves other names
untouched. -/
theorem foldl_storeWrite_lookup (v : String → String) (es : List (String × String))
    (hv : ∀ e ∈ es, e.2 = v e.1) (fs : FileStore) (n : String) :
    (es.foldl (fun acc e => storeWrite acc e.1 e.2) fs) n =
      if n ∈ es.map Prod.fst then some (v n) else fs n := by
  induction es generalizing fs with
  | nil => simp
  | cons e t ih =>
    have hv2 : ∀ x ∈ t, x.2 = v x.1 := fun x hx => hv x (by simp [hx])
    have step := ih hv2 (storeWrite fs e.1 e.2)
    simp only [List.foldl_cons, step, List.map_cons, List.mem_cons]
    by_cases hmem : n ∈ t.map Prod.fst
    · simp [hmem]
    · by_cases hne : n = e.1
      · subst hne
        simp [hmem, storeWrite, hv e (by simp)]
      · simp [hmem, hne, storeWrite]

/-- C5: archival round trip: compressing a batch of loose cache files and
then extracting the produced archive restores loose files byte-identical to
the pre-compression originals, and the list of archived (hence restored)
filenames is exactly the list compressed. -/
theorem compress_extract_roundtrip (cache : FileStore) (files : List String)
    (h : ∀ n ∈ files, (cache n).isSome) :
    ∃ entries cache1, compress_impl cache files true = some (entries, cache1) ∧
      entries.map Prod.fst = files ∧
      ∀ n ∈ files, extract_impl (some entries) cache1 n = cache n := by
  refine ⟨files.map (fun n => (n, (cache n).getD "")),
    (fun k => if k ∈ files then none else cache k), ?_, ?_, ?_⟩
  · simp only [compress_impl, readEntries_eq_map cache files h, Option.bind_eq_bind,
      Option.some_bind, if_pos]
  · simp [Function.comp_def]
  · intro n hn
    have hv : ∀ e ∈ files.map (fun n => (n, (cache n).getD "")), e.2 = (cache e.1).getD "" := by
      intro e he
      obtain ⟨x, _, hx⟩ := List.mem_map.mp he
      rw [← hx]
    have := foldl_storeWrite_lookup (fun n => (cache n).getD "")
      (files.map (fun n => (n, (cache n).getD ""))) hv
      (fun k => if k ∈ files then none else cache k) n
    have hmem : n ∈ (files.map (fun n => (n, (cache n).getD ""))).map Prod.fst := by
      simp [hn]
    rw [extract_impl, this, if_pos hmem]
    obtain ⟨c, hc⟩ := Option.isSome_iff_exists.mp (h n hn)
    simp [hc]

/-- Witness for C5 at a concrete two-file batch. -/
theorem compress_extract_roundtrip_witness :
    ∃ entries cache1,
      compress_impl
        (fun k => if k = "a.txt" then some "A" else if k = "b.txt" then some "B" else none)
        ["a.txt", "b.txt"] true = some (entries, cache1) ∧
      entries.map Prod.fst = ["a.txt", "b.txt"] ∧
      ∀ n ∈ ["a.txt", "b.txt"], extract_impl (some entries) cache1 n =
        (fun k => if k = "a.txt" then some "A" else if k = "b.txt" then some "B" else none) n :=
  compress_extract_roundtrip
    (fun k => if k = "a.txt" then some "A" else if k = "b.txt" then some "B" else none)
    ["a.txt", "b.txt"] (by decide)

/-- Running operations that never unlink leaves the loose cache unchanged. -/
theorem runTarOps_cache_of_no_unlink (ops : List TarOp)
    (h : ∀ op ∈ ops, ∀ n, op ≠ TarOp.unlink n) :
    ∀ st : TarState, (runTarOps st ops).cache = st.cache := by
  induction ops with
  | nil => intro st; rfl
  | cons op t ih =>
    intro st
    have hstep : (runTarOp st op).cache = st.cache := by
      cases op with
      | add n => rfl
      | closeArchive => rfl
      | unlink n => exact absurd rfl (h (TarOp.unlink n) (by simp) n)
    have ht : ∀ op2 ∈ t, ∀ n, op2 ≠ TarOp.unlink n :=
      fun op2 hop2 n => h op2 (by simp [hop2]) n
    calc (runTarOps st (op :: t)).cache
        = (runTarOps (runTarOp st op) t).cache := rfl
      _ = (runTarOp st op).cache := ih ht (runTarOp st op)
      _ = st.cache := hstep

/-- C6: in the compression trace with loose-file removal enabled, the bundle
write completes (`closeArchive`, at position `files.length`) strictly before
every `unlink`, and executing any prefix that ends at or before the bundle
completion — in particular a failure at any point during archive writing —
leaves every loose original in place. -/
theorem compress_deletes_only_after_bundle (cache : FileStore) (files : List String)
    (j : Nat) (hj : j ≤ files.length + 1) :
    (runTarOps ⟨[], cache⟩ ((compressOps files true).take j)).cache = cache ∧
    (compressOps files true)[files.length]? = some TarOp.closeArchive ∧
    ∀ i n, (compressOps files true)[i]? = some (TarOp.unlink n) → files.length < i := by
  have hlen : (files.map TarOp.add ++ [TarOp.closeArchive]).length = files.length + 1 := by
    simp
  have hfl : files.length = (files.map TarOp.add).length := by simp
  refine ⟨?_, ?_, ?_⟩
  · have htake : (compressOps files true).take j =
        (files.map TarOp.add ++ [TarOp.closeArchive]).take j := by
      rw [compressOps]
      rw [List.take_append_of_le_length (by rw [hlen]; exact hj)]
    rw [htake]
    apply runTarOps_cache_of_no_unlink
    intro op hop n
    have hop2 : op ∈ files.map TarOp.add ++ [TarOp.closeArchive] :=
      List.take_subset j _ hop
    rcases List.mem_append.mp hop2 with hop3 | hop3
    · obtain ⟨x, _, hx⟩ := List.mem_map.mp hop3
      rw [← hx]; intro hcon; exact TarOp.noConfusion hcon
    · rcases List.mem_singleton.mp hop3 with rfl
      intro hcon; exact TarOp.noConfusion hcon
  · rw [compressOps, List.getElem?_append_left (by rw [hlen]; omega)]
    rw [hfl, List.getElem?_concat_length]
  · intro i n hi
    by_contra hcon
    push_neg at hcon
    have hlt : i < (files.map TarOp.add ++ [TarOp.closeArchive]).length := by
      rw [hlen]; omega
    rw [compressOps, List.getElem?_append_left hlt] at hi
    by_cases hi2 : i < files.length
    · rw [List.getElem?_append_left (by rw [← hfl]; exact hi2), List.getElem?_map] at hi
      cases hget : files[i]? with
      | none => rw [hget] at hi; exact Option.noConfusion hi
      | some x =>
        rw [hget] at hi
        simp only [Option.map_some'] at hi
        exact TarOp.noConfusion (Option.some.inj hi)
    · have : i = files.length := by omega
      subst this
      rw [hfl, List.getElem?_concat_length] at hi
      exact TarOp.noConfusion (Option.some.inj hi)

/-- Witness for C6 at a concrete one-file batch and prefix. -/
theorem compress_deletes_only_after_bundle_witness :
    (runTarOps ⟨[], fun k => if k = "a" then some "A" else none⟩
        ((compressOps ["a"] true).take 1)).cache = (fun k => if k = "a" then some "A" else none) ∧
    (compressOps ["a"] true)[([("a" : String)].length)]? = some TarOp.closeArchive ∧
    ∀ i n, (compressOps ["a"] true)[i]? = some (TarOp.unlink n) → [("a" : String)].length < i :=
  compress_deletes_only_after_bundle (fun k => if k = "a" then some "A" else none) ["a"] 1
    (by omega)

/-! ## Theorems: observation parser -/

/-- The fuel argument of `natDigitsAux` is irrelevant once above `n`. -/
theorem natDigitsAux_fuel (f1 : Nat) : ∀ f2 n : Nat, n < f1 → n < f2 →
    natDigitsAux f1 n = natDigitsAux f2 n := by
  induction f1 with
  | zero => intro f2 n h1 _; omega
  | succ g ih =>
    intro f2 n h1 h2
    cases f2 with
    | zero => omega
    | succ g2 =>
      by_cases h10 : n < 10
      · simp [natDigitsAux, h10]
      · have hdiv : n / 10 < n := Nat.div_lt_self (by omega) (by omega)
        simp only [natDigitsAux, h10, if_false]
        rw [ih g2 (n / 10) (by omega) (by omega)]

/-- Unfolding step of `natDigitsAux` for a multi-digit number. -/
theorem natDigitsAux_step (fuel n : Nat) (h : ¬ n < 10) :
    natDigitsAux (fuel + 1) n = natDigitsAux fuel (n / 10) ++ [Nat.digitChar (n % 10)] := by
  simp [natDigitsAux, h]

/-- Base step of `natDigitsAux` for a single-digit number. -/
theorem natDigitsAux_base (fuel n : Nat) (h : n < 10) :
    natDigitsAux (fuel + 1) n = [Nat.digitChar n] := by
  simp [natDigitsAux, h]

/-- A year between 1000 and 9999 renders as exactly four digit characters. -/
theorem natDigits_length_four (n : Nat) (h1 : 1000 ≤ n) (h2 : n ≤ 9999) :
    (natDigits n).length = 4 := by
  have hd1 : n / 10 < n := Nat.div_lt_self (by omega) (by omega)
  have hd2 : n / 10 / 10 < n / 10 := Nat.div_lt_self (by omega) (by omega)
  have hd3 : n / 10 / 10 / 10 < n / 10 / 10 := Nat.div_lt_self (by omega) (by omega)
  have e0 : natDigits n = natDigitsAux (n + 1) n := rfl
  rw [e0, natDigitsAux_step n n (by omega)]
  rw [natDigitsAux_fuel n (n / 10 + 1) (n / 10) (by omega) (by omega)]
  rw [natDigitsAux_step (n / 10) (n / 10) (by omega)]
  rw [natDigitsAux_fuel (n / 10) (n / 10 / 10 + 1) (n / 10 / 10) (by omega) (by omega)]
  rw [natDigitsAux_step (n / 10 / 10) (n / 10 / 10) (by omega)]
  rw [natDigitsAux_fuel (n / 10 / 10) (n / 10 / 10 / 10 + 1) (n / 10 / 10 / 10)
    (by omega) (by omega)]
  rw [natDigitsAux_base (n / 10 / 10 / 10) (n / 10 / 10 / 10) (by omega)]
  simp

/-- C2 counterexample: a raw markup input on which two produced rows share
the same (region id, station id, date, hour) quadruple — a single 26-row
table whose first two rows both have 17 cells with hour text "1". -/
theorem get_df_block_date_dup_quadruple_cex :
    ¬ (((get_df_block_date 44 47662 2024 1 1
        [⟨⟨List.replicate 17 ⟨"1", none⟩⟩ :: ⟨List.replicate 17 ⟨"1", none⟩⟩ ::
          List.replicate 24 ⟨[]⟩⟩]).map obsKey).Nodup) := by
  decide

/-- C2 (amended): among the observation rows produced by a single call to
the day-page parser, the (region id, station id, date, hour) quadruples are
pairwise distinct provided the hour-cell texts of the qualifying data rows
(rows with exactly 17 cells inside tables with exactly 26 rows) are pairwise
distinct — which is the case for the source site's fixed layout with hour
values 1..24. -/
theorem get_df_block_date_nodup_quadruples (prec_no block_no year month day : Nat)
    (tables : List HtmlTable)
    (hhours : ((tables.filter (fun t => t.rows.length = 26)).bind
        (fun t => (t.rows.filter (fun r => r.cells.length = 17)).map
          (fun r => (r.cells.getD 0 defaultCell).text))).Nodup) :
    ((get_df_block_date prec_no block_no year month day tables).map obsKey).Nodup := by
  have hmap : (get_df_block_date prec_no block_no year month day tables).map obsKey =
      ((tables.filter (fun t => t.rows.length = 26)).bind
        (fun t => (t.rows.filter (fun r => r.cells.length = 17)).map
          (fun r => (r.cells.getD 0 defaultCell).text))).map
        (fun h => (prec_no, block_no, dateStr8 year month day, h)) := by
    simp only [get_df_block_date, List.map_bind, List.map_map]
    rfl
  rw [hmap]
  apply List.Nodup.map _ hhours
  intro a b hab
  simpa using hab

/-- Witness for C2 (amended) at a 26-row table carrying 24 data rows with
pairwise-distinct hour texts. -/
theorem get_df_block_date_nodup_quadruples_witness :
    (([hoursTable].filter (fun t => t.rows.length = 26)).bind
        (fun t => (t.rows.filter (fun r => r.cells.length = 17)).map
          (fun r => (r.cells.getD 0 defaultCell).text))).Nodup ∧
    ((get_df_block_date 44 47662 2024 1 1 [hoursTable]).map obsKey).Nodup :=
  ⟨by decide, get_df_block_date_nodup_quadruples 44 47662 2024 1 1 [hoursTable] (by decide)⟩

/-- C8 counterexample: a day-page input containing a table of exactly 26
rows in which exactly the 24 data rows have 17 cells (the other two rows
have 0) — but containing it twice — yields 48 observations, not 24. -/
theorem get_df_block_date_two_tables_cex :
    uniformTable ∈ [uniformTable, uniformTable] ∧
    uniformTable.rows.length = 26 ∧
    (uniformTable.rows.filter (fun r => r.cells.length = 17)).length = 24 ∧
    (get_df_block_date 44 47662 2024 1 1 [uniformTable, uniformTable]).length = 48 := by
  refine ⟨by decide, by decide, by decide, by decide⟩

/-- C8 (amended): when the day-page input's only table with exactly 26 rows
is `T`, and within `T` exactly 24 rows have exactly 17 cells, the parser
yields exactly the 24 observations obtained from those data rows in order —
each carrying the queried region id, station id and 8-digit date, with the
raw values taken from cell indices 0, 3, 4, 7, 8, 12 and 13 as `rowToObs`
records. -/
theorem get_df_block_date_single_table (prec_no block_no year month day : Nat)
    (tables : List HtmlTable) (T : HtmlTable)
    (hT : tables.filter (fun t => t.rows.length = 26) = [T])
    (hrows : (T.rows.filter (fun r => r.cells.length = 17)).length = 24)
    (hy1 : 1000 ≤ year) (hy2 : year ≤ 9999) :
    get_df_block_date prec_no block_no year month day tables =
      (T.rows.filter (fun r => r.cells.length = 17)).map
        (rowToObs prec_no block_no (dateStr8 year month day)) ∧
    (get_df_block_date prec_no block_no year month day tables).length = 24 ∧
    (∀ o ∈ get_df_block_date prec_no block_no year month day tables,
      o.prec_no = prec_no ∧ o.block_no = block_no ∧ o.date = dateStr8 year month day) ∧
    (dateStr8 year month day).length = 8 := by
  have heq : get_df_block_date prec_no block_no year month day tables =
      (T.rows.filter (fun r => r.cells.length = 17)).map
        (rowToObs prec_no block_no (dateStr8 year month day)) := by
    rw [get_df_block_date, hT]
    simp
  refine ⟨heq, ?_, ?_, ?_⟩
  · rw [heq, List.length_map, hrows]
  · intro o ho
    rw [heq] at ho
    obtain ⟨r, _, hr⟩ := List.mem_map.mp ho
    rw [← hr]
    exact ⟨rfl, rfl, rfl⟩
  · show (natDigits year ++ fmt2chars month ++ fmt2chars day).length = 8
    simp [natDigits_length_four year hy1 hy2, fmt2chars]

/-- Witness for C8 (amended) at a concrete page: one qualifying 26-row
table next to a non-qualifying one. -/
theorem get_df_block_date_single_table_witness :
    [(⟨[]⟩ : HtmlTable), uniformTable].filter (fun t => t.rows.length = 26) = [uniformTable] ∧
    (uniformTable.rows.filter (fun r => r.cells.length = 17)).length = 24 ∧
    (get_df_block_date 44 47662 2024 1 1 [⟨[]⟩, uniformTable]).length = 24 ∧
    (dateStr8 2024 1 1).length = 8 := by
  have h := get_df_block_date_single_table 44 47662 2024 1 1 [⟨[]⟩, uniformTable] uniformTable
    (by decide) (by decide) (by omega) (by omega)
  exact ⟨by decide, by decide, h.2.1, h.2.2.2⟩

/-- C10 counterexample: a qualifying data row whose index-14 cell carries an
icon whose alt attribute is present but empty produces the empty-string
weather label even though an icon element IS present — so the empty string
is not produced only when no icon is present. -/
theorem rowToObs_weather_empty_alt_cex :
    (rowToObs 44 47662 "20240101" emptyAltRow).weather = some "" ∧
    (emptyAltRow.cells.getD 14 defaultCell).img ≠ none ∧
    emptyAltRow.cells.length = 17 := by
  refine ⟨by decide, by decide, by decide⟩

/-- C10 (amended): for a qualifying 17-cell data row, an icon present at
cell index 14 but lacking an alt attribute yields a null (`none`) weather
label, not the empty string; and the empty-string label arises only when no
icon is present at all or the icon's alt attribute is the empty string. -/
theorem rowToObs_weather_label (prec_no block_no : Nat) (date : String) (r : TrRow)
    (h17 : r.cells.length = 17) :
    ((r.cells.getD 14 defaultCell).img = some ⟨none⟩ →
      (rowToObs prec_no block_no date r).weather = none) ∧
    ((rowToObs prec_no block_no date r).weather = some "" →
      (r.cells.getD 14 defaultCell).img = none ∨
        (r.cells.getD 14 defaultCell).img = some ⟨some ""⟩) := by
  constructor
  · intro himg
    show (match (r.cells.getD 14 defaultCell).img with
      | none => some ""
      | some i => i.alt) = none
    rw [himg]
  · intro hw
    have hw2 : (match (r.cells.getD 14 defaultCell).img with
        | none => some ""
        | some i => i.alt) = some "" := hw
    cases himg : (r.cells.getD 14 defaultCell).img with
    | none => exact Or.inl rfl
    | some i =>
      right
      rw [himg] at hw2
      cases i with
      | mk a =>
        cases a with
        | none => exact Option.noConfusion hw2
        | some s =>
          have hs : s = "" := Option.some.inj hw2
          rw [hs]

/-- Witness for C10 (amended) at a 17-cell row whose index-14 cell has an
icon without an alt attribute. -/
theorem rowToObs_weather_label_witness :
    ((noAltRow.cells.getD 14 defaultCell).img = some ⟨none⟩ →
      (rowToObs 44 47662 "20240101" noAltRow).weather = none) ∧
    ((rowToObs 44 47662 "20240101" noAltRow).weather = some "" →
      (noAltRow.cells.getD 14 defaultCell).img = none ∨
        (noAltRow.cells.getD 14 defaultCell).img = some ⟨some ""⟩) :=
  rowToObs_weather_label 44 47662 "20240101" noAltRow (by decide)

/-! ## Theorems: calendar arithmetic -/

/-- Every month has at least 28 days. -/
theorem daysInMonth_pos (y m : Nat) : 28 ≤ daysInMonth y m := by
  unfold daysInMonth
  split_ifs <;> omega

/-- Every month has at most 31 days. -/
theorem daysInMonth_le (y m : Nat) : daysInMonth y m ≤ 31 := by
  unfold daysInMonth
  split_ifs <;> omega

/-- Month prefix sums step by the month length. -/
theorem daysBeforeMonth_succ (y m : Nat) (h1 : 1 ≤ m) (h2 : m ≤ 11) :
    daysBeforeMonth y (m + 1) = daysBeforeMonth y m + daysInMonth y m := by
  interval_cases m <;> by_cases hl : isLeap y <;>
    simp [daysBeforeMonth, daysInMonth, hl] <;> omega

/-- Month prefix sums are monotone within a year. -/
theorem daysBeforeMonth_mono (y a : Nat) (ha : 1 ≤ a) :
    ∀ k, a + k ≤ 12 → daysBeforeMonth y a ≤ daysBeforeMonth y (a + k) := by
  intro k
  induction k with
  | zero => intro _; exact Nat.le_refl _
  | succ j ih =>
    intro hk
    have h1 : daysBeforeMonth y a ≤ daysBeforeMonth y (a + j) := ih (by omega)
    have h2 : daysBeforeMonth y (a + j + 1) =
        daysBeforeMonth y (a + j) + daysInMonth y (a + j) :=
      daysBeforeMonth_succ y (a + j) (by omega) (by omega)
    have h3 : a + (j + 1) = a + j + 1 := rfl
    rw [h3]
    omega

/-- Year prefix sums step by the year length. -/
theorem daysBeforeYear_succ (y : Nat) (hy : 1 ≤ y) :
    daysBeforeYear (y + 1) = daysBeforeYear y + 365 + (if isLeap y then 1 else 0) := by
  by_cases h4 : y % 4 = 0 <;> by_cases h100 : y % 100 = 0 <;> by_cases h400 : y % 400 = 0 <;>
    simp [daysBeforeYear, isLeap, h4, h100, h400] <;> omega

/-- Year prefix sums are monotone. -/
theorem daysBeforeYear_mono (y1 y2 : Nat) (h : y1 ≤ y2) :
    daysBeforeYear y1 ≤ daysBeforeYear y2 := by
  unfold daysBeforeYear
  have d4 : (y1 - 1) / 4 ≤ (y2 - 1) / 4 := Nat.div_le_div_right (by omega)
  have d100 : (y1 - 1) / 100 ≤ (y2 - 1) / 100 := Nat.div_le_div_right (by omega)
  have d400 : (y1 - 1) / 400 ≤ (y2 - 1) / 400 := Nat.div_le_div_right (by omega)
  omega

/-- A valid date's in-year offset is below the year length. -/
theorem inYear_lt (d : Date) (hd : ValidDate d) :
    daysBeforeMonth d.year d.month + (d.day - 1) < 365 + (if isLeap d.year then 1 else 0) := by
  obtain ⟨y, m, day⟩ := d
  obtain ⟨h1, h2, h3, h4, h5⟩ := hd
  simp only at h2 h3 h4 h5 ⊢
  interval_cases m <;> by_cases hl : isLeap y <;>
    simp [daysBeforeMonth, daysInMonth, hl] at h5 ⊢ <;> omega

/-- A valid date's ordinal lies below the next year's first ordinal. -/
theorem toOrdinal_lt_year_succ (d : Date) (hd : ValidDate d) :
    toOrdinal d < daysBeforeYear (d.year + 1) := by
  have h1 := inYear_lt d hd
  have h2 := daysBeforeYear_succ d.year hd.1
  unfold toOrdinal
  omega

/-- Ordinal order bounds year order on valid dates. -/
theorem year_le_of_toOrdinal_le (d1 d2 : Date) (h1 : ValidDate d1) (h2 : ValidDate d2)
    (h : toOrdinal d1 ≤ toOrdinal d2) : d1.year ≤ d2.year := by
  by_contra hcon
  push_neg at hcon
  have ha : toOrdinal d2 < daysBeforeYear (d2.year + 1) := toOrdinal_lt_year_succ d2 h2
  have hb : daysBeforeYear (d2.year + 1) ≤ daysBeforeYear d1.year :=
    daysBeforeYear_mono _ _ (by omega)
  have hc : daysBeforeYear d1.year ≤ toOrdinal d1 := by
    unfold toOrdinal; omega
  omega

/-- The calendar successor of a valid date is valid. -/
theorem ValidDate_nextDate (d : Date) (hd : ValidDate d) : ValidDate (nextDate d) := by
  obtain ⟨y, m, day⟩ := d
  obtain ⟨h1, h2, h3, h4, h5⟩ := hd
  simp only at h1 h2 h3 h4 h5
  unfold nextDate
  dsimp only
  split_ifs with ha hb
  · exact ⟨h1, h2, h3, by show 1 ≤ day + 1; omega, by show day + 1 ≤ daysInMonth y m; omega⟩
  · have hp := daysInMonth_pos y (m + 1)
    exact ⟨h1, by show 1 ≤ m + 1; omega, by show m + 1 ≤ 12; omega,
      by show 1 ≤ 1; omega, by show 1 ≤ daysInMonth y (m + 1); omega⟩
  · have hp := daysInMonth_pos (y + 1) 1
    exact ⟨by show 1 ≤ y + 1; omega, by show (1 : Nat) ≤ 1; omega, by show (1 : Nat) ≤ 12; omega,
      by show (1 : Nat) ≤ 1; omega, by show 1 ≤ daysInMonth (y + 1) 1; omega⟩

/-- The calendar successor advances the ordinal by exactly one. -/
theorem toOrdinal_nextDate (d : Date) (hd : ValidDate d) :
    toOrdinal (nextDate d) = toOrdinal d + 1 := by
  obtain ⟨y, m, day⟩ := d
  obtain ⟨h1, h2, h3, h4, h5⟩ := hd
  simp only at h1 h2 h3 h4 h5
  unfold nextDate
  dsimp only
  split_ifs with ha hb
  · show daysBeforeYear y + daysBeforeMonth y m + (day + 1 - 1) =
      daysBeforeYear y + daysBeforeMonth y m + (day - 1) + 1
    omega
  · have hstep := daysBeforeMonth_succ y m h2 (by omega)
    show daysBeforeYear y + daysBeforeMonth y (m + 1) + (1 - 1) =
      daysBeforeYear y + daysBeforeMonth y m + (day - 1) + 1
    omega
  · have hm : m = 12 := by omega
    subst hm
    have hdim : daysInMonth y 12 = 31 := by simp [daysInMonth]
    have hstep := daysBeforeYear_succ y h1
    have hbm : daysBeforeMonth y 12 = 334 + (if isLeap y then 1 else 0) := by
      simp [daysBeforeMonth]
    have hbm1 : daysBeforeMonth (y + 1) 1 = 0 := by simp [daysBeforeMonth]
    show daysBeforeYear (y + 1) + daysBeforeMonth (y + 1) 1 + (1 - 1) =
      daysBeforeYear y + daysBeforeMonth y 12 + (day - 1) + 1
    omega

/-- Months and days are determined by the in-year offset. -/
theorem month_day_det (y m1 day1 m2 day2 : Nat)
    (hm1 : 1 ≤ m1) (hm1b : m1 ≤ 12) (hd1 : 1 ≤ day1) (hd1b : day1 ≤ daysInMonth y m1)
    (hm2 : 1 ≤ m2) (hm2b : m2 ≤ 12) (hd2 : 1 ≤ day2) (hd2b : day2 ≤ daysInMonth y m2)
    (h : daysBeforeMonth y m1 + (day1 - 1) = daysBeforeMonth y m2 + (day2 - 1)) :
    m1 = m2 ∧ day1 = day2 := by
  have hmeq : m1 = m2 := by
    rcases Nat.lt_trichotomy m1 m2 with hlt | heq | hgt
    · exfalso
      have hs : daysBeforeMonth y (m1 + 1) = daysBeforeMonth y m1 + daysInMonth y m1 :=
        daysBeforeMonth_succ y m1 hm1 (by omega)
      have hmono := daysBeforeMonth_mono y (m1 + 1) (by omega) (m2 - (m1 + 1)) (by omega)
      rw [show m1 + 1 + (m2 - (m1 + 1)) = m2 by omega] at hmono
      omega
    · exact heq
    · exfalso
      have hs : daysBeforeMonth y (m2 + 1) = daysBeforeMonth y m2 + daysInMonth y m2 :=
        daysBeforeMonth_succ y m2 hm2 (by omega)
      have hmono := daysBeforeMonth_mono y (m2 + 1) (by omega) (m1 - (m2 + 1)) (by omega)
      rw [show m2 + 1 + (m1 - (m2 + 1)) = m1 by omega] at hmono
      omega
  subst hmeq
  exact ⟨rfl, by omega⟩

/-- The ordinal is injective on valid dates. -/
theorem toOrdinal_inj (d1 d2 : Date) (h1 : ValidDate d1) (h2 : ValidDate d2)
    (h : toOrdinal d1 = toOrdinal d2) : d1 = d2 := by
  have hy : d1.year = d2.year :=
    Nat.le_antisymm (year_le_of_toOrdinal_le d1 d2 h1 h2 (by omega))
      (year_le_of_toOrdinal_le d2 d1 h2 h1 (by omega))
  obtain ⟨y1, m1, a1⟩ := d1
  obtain ⟨y2, m2, a2⟩ := d2
  simp only at hy
  subst hy
  obtain ⟨v1, v2, v3, v4, v5⟩ := h1
  obtain ⟨w1, w2, w3, w4, w5⟩ := h2
  simp only at v2 v3 v4 v5 w2 w3 w4 w5
  simp only [toOrdinal] at h
  have hoff : daysBeforeMonth y1 m1 + (a1 - 1) = daysBeforeMonth y1 m2 + (a2 - 1) := by omega
  obtain ⟨hm, hd⟩ := month_day_det y1 m1 a1 m2 a2 v2 v3 v4 v5 w2 w3 w4 w5 hoff
  simp [hm, hd]

/-- Validity and ordinal of the i-fold calendar successor. -/
theorem iter_nextDate (s : Date) (hs : ValidDate s) (i : Nat) :
    ValidDate (nextDate^[i] s) ∧ toOrdinal (nextDate^[i] s) = toOrdinal s + i := by
  induction i with
  | zero => exact ⟨hs, rfl⟩
  | succ j ih =>
    rw [Function.iterate_succ_apply']
    exact ⟨ValidDate_nextDate _ ih.1,
      by rw [toOrdinal_nextDate _ ih.1, ih.2]; omega⟩

/-- Walking the ordinal difference of two valid dates reaches the second. -/
theorem iter_reaches (s e : Date) (hs : ValidDate s) (he : ValidDate e)
    (h : toOrdinal s ≤ toOrdinal e) :
    nextDate^[toOrdinal e - toOrdinal s] s = e := by
  obtain ⟨hv, ho⟩ := iter_nextDate s hs (toOrdinal e - toOrdinal s)
  exact toOrdinal_inj _ _ hv he (by omega)

/-- Digit characters of values below ten have the expected code points. -/
theorem digitChar_toNat (a : Nat) (h : a < 10) : (Nat.digitChar a).toNat = 48 + a := by
  interval_cases a <;> rfl

/-- Digit characters of values below ten satisfy `Char.isDigit`. -/
theorem digitChar_isDigit (a : Nat) (h : a < 10) : (Nat.digitChar a).isDigit = true := by
  interval_cases a <;> rfl

/-- Digit value of a rendered digit. -/
theorem digitVal_digitChar (a : Nat) (h : a < 10) : digitVal (Nat.digitChar a) = a := by
  unfold digitVal
  rw [digitChar_toNat a h]
  have h0 : '0'.toNat = 48 := rfl
  omega

/-- The formatted date string determines the date, on valid dates with
four-digit-or-less years. -/
theorem formatDate_inj (d1 d2 : Date) (h1 : ValidDate d1) (h2 : ValidDate d2)
    (hy1 : d1.year ≤ 9999) (hy2 : d2.year ≤ 9999)
    (h : formatDate d1 = formatDate d2) : d1 = d2 := by
  obtain ⟨y1, m1, a1⟩ := d1
  obtain ⟨y2, m2, a2⟩ := d2
  obtain ⟨v1, v2, v3, v4, v5⟩ := h1
  obtain ⟨w1, w2, w3, w4, w5⟩ := h2
  simp only at v3 v5 w3 w5 hy1 hy2
  have hdm1 := daysInMonth_le y1 m1
  have hdm2 := daysInMonth_le y2 m2
  have hl := congrArg String.data h
  simp only [formatDate, fmt4chars, fmt2chars, List.cons_append, List.nil_append,
    List.cons.injEq, and_true, true_and] at hl
  obtain ⟨e1, e2, e3, e4, e5, e6, e7, e8⟩ := hl
  have t1 := congrArg Char.toNat e1
  have t2 := congrArg Char.toNat e2
  have t3 := congrArg Char.toNat e3
  have t4 := congrArg Char.toNat e4
  have t5 := congrArg Char.toNat e5
  have t6 := congrArg Char.toNat e6
  have t7 := congrArg Char.toNat e7
  have t8 := congrArg Char.toNat e8
  rw [digitChar_toNat _ (by omega), digitChar_toNat _ (by omega)] at t1 t2 t3 t4 t5 t6 t7 t8
  simp only [Date.mk.injEq]
  refine ⟨by omega, by omega, by omega⟩

/-- The seven-character prefix of a formatted date is its year-month key. -/
theorem pySlice7_formatDate (d : Date) : pySlice7 (formatDate d) = ymKey d := rfl

/-- The year-month key determines year and month, for years up to 9999 and
months up to 99. -/
theorem ymKey_inj (d1 d2 : Date) (hy1 : d1.year ≤ 9999) (hy2 : d2.year ≤ 9999)
    (hm1 : d1.month ≤ 99) (hm2 : d2.month ≤ 99) (h : ymKey d1 = ymKey d2) :
    d1.year = d2.year ∧ d1.month = d2.month := by
  have hl := congrArg String.data h
  simp only [ymKey, fmt4chars, fmt2chars, List.cons_append, List.nil_append,
    List.cons.injEq, and_true, true_and] at hl
  obtain ⟨e1, e2, e3, e4, e5, e6⟩ := hl
  have t1 := congrArg Char.toNat e1
  have t2 := congrArg Char.toNat e2
  have t3 := congrArg Char.toNat e3
  have t4 := congrArg Char.toNat e4
  have t5 := congrArg Char.toNat e5
  have t6 := congrArg Char.toNat e6
  rw [digitChar_toNat _ (by omega), digitChar_toNat _ (by omega)] at t1 t2 t3 t4 t5 t6
  exact ⟨by omega, by omega⟩

/-- The year-month key depends only on year and month. -/
theorem ymKey_congr (d1 d2 : Date) (hy : d1.year = d2.year) (hm : d1.month = d2.month) :
    ymKey d1 = ymKey d2 := by
  unfold ymKey
  rw [hy, hm]

/-- Splitting a digit run followed by a dash with takeWhile and
dropWhile. -/
theorem takeWhile_digit_run (xs r : List Char) (hxs : ∀ c ∈ xs, c.isDigit = true) :
    (xs ++ '-' :: r).takeWhile (·.isDigit) = xs ∧
    (xs ++ '-' :: r).dropWhile (·.isDigit) = '-' :: r := by
  induction xs with
  | nil => constructor <;> rfl
  | cons c t ih =>
    have hc : c.isDigit = true := hxs c (by simp)
    have ht := ih (fun x hx => hxs x (by simp [hx]))
    simp [List.takeWhile_cons, List.dropWhile_cons, hc, ht.1, ht.2]

/-- The digit value of four rendered digits of a number up to 9999. -/
theorem digitsToNat_fmt4 (n : Nat) (h : n ≤ 9999) : digitsToNat (fmt4chars n) = n := by
  unfold digitsToNat fmt4chars
  simp only [List.foldl_cons, List.foldl_nil]
  rw [digitVal_digitChar _ (by omega), digitVal_digitChar _ (by omega),
    digitVal_digitChar _ (by omega), digitVal_digitChar _ (by omega)]
  omega

/-- The digit value of two rendered digits of a number up to 99. -/
theorem digitsToNat_fmt2 (n : Nat) (h : n ≤ 99) : digitsToNat (fmt2chars n) = n := by
  unfold digitsToNat fmt2chars
  simp only [List.foldl_cons, List.foldl_nil]
  rw [digitVal_digitChar _ (by omega), digitVal_digitChar _ (by omega)]
  omega

/-- Parsing a formatted valid date with `strptime` recovers the date. -/
theorem parseYmd_formatDate (d : Date) (hd : ValidDate d) (hy : d.year ≤ 9999) :
    parseYmd (formatDate d) = some d := by
  obtain ⟨y, m, day⟩ := d
  obtain ⟨v1, v2, v3, v4, v5⟩ := hd
  simp only at v1 v2 v3 v4 v5 hy
  have hdm := daysInMonth_le y m
  have hy4 : ∀ c ∈ fmt4chars y, c.isDigit = true := by
    intro c hc
    simp only [fmt4chars, List.mem_cons, List.not_mem_nil, or_false] at hc
    rcases hc with rfl | rfl | rfl | rfl <;> exact digitChar_isDigit _ (by omega)
  have hm2 : ∀ c ∈ fmt2chars m, c.isDigit = true := by
    intro c hc
    simp only [fmt2chars, List.mem_cons, List.not_mem_nil, or_false] at hc
    rcases hc with rfl | rfl <;> exact digitChar_isDigit _ (by omega)
  have hd2 : ∀ c ∈ fmt2chars day, c.isDigit = true := by
    intro c hc
    simp only [fmt2chars, List.mem_cons, List.not_mem_nil, or_false] at hc
    rcases hc with rfl | rfl <;> exact digitChar_isDigit _ (by omega)
  have step1 := takeWhile_digit_run (fmt4chars y) (fmt2chars m ++ '-' :: fmt2chars day) hy4
  have step2 := takeWhile_digit_run (fmt2chars m) (fmt2chars day) hm2
  have step3 : (fmt2chars day).takeWhile (·.isDigit) = fmt2chars day ∧
      (fmt2chars day).dropWhile (·.isDigit) = [] := by
    constructor
    · exact List.takeWhile_eq_self_iff.mpr hd2
    · exact List.dropWhile_eq_nil_iff.mpr (fun x hx => hd2 x hx)
  have hdata : (formatDate ⟨y, m, day⟩).data =
      fmt4chars y ++ '-' :: (fmt2chars m ++ '-' :: fmt2chars day) := by
    simp [formatDate]
  have hlen4 : (fmt4chars y).length = 4 := rfl
  have hlen2m : (fmt2chars m).length = 2 := rfl
  have hlen2d : (fmt2chars day).length = 2 := rfl
  unfold parseYmd
  rw [hdata]
  simp only [step1.1, step1.2, step2.1, step2.2, step3.1, step3.2, hlen4, hlen2m, hlen2d,
    digitsToNat_fmt4 y (by omega), digitsToNat_fmt2 m (by omega),
    digitsToNat_fmt2 day (by omega)]
  norm_num
  intro hcon
  exact absurd (hcon ⟨v1, v2, v3, v4, v5⟩) (by omega)

/-- The calendar successor does not decrease the year-month pair. -/
theorem ymLe_next (d : Date) : ymLe d (nextDate d) := by
  obtain ⟨y, m, day⟩ := d
  unfold ymLe nextDate
  dsimp only
  split_ifs
  · exact Or.inr ⟨rfl, Nat.le_refl m⟩
  · exact Or.inr ⟨rfl, by show m ≤ m + 1; omega⟩
  · exact Or.inl (by show y < y + 1; omega)

/-- The year-month order is transitive. -/
theorem ymLe_trans (d1 d2 d3 : Date) (h1 : ymLe d1 d2) (h2 : ymLe d2 d3) : ymLe d1 d3 := by
  unfold ymLe at *
  omega

/-- The year-month pair is nondecreasing along iterated successors. -/
theorem ymLe_iter (s : Date) (i : Nat) : ∀ j, i ≤ j → ymLe (nextDate^[i] s) (nextDate^[j] s) := by
  intro j
  induction j with
  | zero =>
    intro hij
    have : i = 0 := by omega
    subst this
    unfold ymLe
    omega
  | succ k ih =>
    intro hij
    by_cases hik : i = k + 1
    · subst hik
      unfold ymLe
      omega
    · have h1 := ih (by omega)
      have h2 : ymLe (nextDate^[k] s) (nextDate^[k + 1] s) := by
        rw [Function.iterate_succ_apply']
        exact ymLe_next _
      exact ymLe_trans _ _ _ h1 h2

/-- Inserting under an absent key appends a fresh singleton bucket. -/
theorem dicInsert_not_mem (ym d : String) (B : List (String × List String))
    (h : ym ∉ B.map Prod.fst) : dicInsert ym d B = B ++ [(ym, [d])] := by
  induction B with
  | nil => rfl
  | cons p t ih =>
    obtain ⟨k, ds⟩ := p
    simp only [List.map_cons, List.mem_cons] at h
    push_neg at h
    obtain ⟨h1, h2⟩ := h
    simp only [dicInsert]
    rw [if_neg (fun hk => h1 hk.symm), ih h2]
    rfl

/-- Inserting under the key of the last bucket, when no earlier bucket has
that key, appends to the last bucket's list. -/
theorem dicInsert_last (ym d : String) (B' : List (String × List String)) (ds : List String)
    (h : ym ∉ B'.map Prod.fst) :
    dicInsert ym d (B' ++ [(ym, ds)]) = B' ++ [(ym, ds ++ [d])] := by
  induction B' with
  | nil => simp [dicInsert]
  | cons p t ih =>
    obtain ⟨k, es⟩ := p
    simp only [List.map_cons, List.mem_cons] at h
    push_neg at h
    obtain ⟨h1, h2⟩ := h
    simp only [List.cons_append, dicInsert, List.append_eq]
    rw [if_neg (fun hk => h1 hk.symm), ih h2]

/-- One unfolding step of the `get_dates` loop. -/
theorem buildDic_succ (s : Date) (c : Nat) :
    buildDic s (c + 1) = dicInsert (pySlice7 (formatDate (nextDate^[c] s)))
      (formatDate (nextDate^[c] s)) (buildDic s c) := by
  unfold buildDic
  rw [List.range_succ, List.foldl_append]
  rfl

/-- Invariant of the `get_dates` bucketing loop: after `c` of `count`
iterations the dict's keys are distinct, its buckets flatten in order to the
formatted dates processed so far, every stored date sits under its own
year-month-prefix key, every key is the key of some processed date, and the
last bucket carries the key of the last processed date. -/
theorem buildDic_invariant (s : Date) (hs : ValidDate s) (count : Nat)
    (hb : ∀ i, i < count → (nextDate^[i] s).year ≤ 9999) :
    ∀ c, c ≤ count →
      ((buildDic s c).map Prod.fst).Nodup ∧
      ((buildDic s c).bind Prod.snd) =
        (List.range c).map (fun i => formatDate (nextDate^[i] s)) ∧
      (∀ p ∈ buildDic s c, ∀ x ∈ p.2, pySlice7 x = p.1) ∧
      (∀ k ∈ (buildDic s c).map Prod.fst, ∃ i, i < c ∧ k = ymKey (nextDate^[i] s)) ∧
      (∀ c', c' + 1 = c →
        ((buildDic s c).getLast?).map Prod.fst = some (ymKey (nextDate^[c'] s))) := by
  intro c
  induction c with
  | zero =>
    intro _
    refine ⟨by simp [buildDic], by simp [buildDic], by simp [buildDic], by simp [buildDic], ?_⟩
    intro c' hc'
    omega
  | succ c ih =>
    intro hc
    obtain ⟨ih1, ih2, ih3, ih4, ih5⟩ := ih (by omega)
    have hkey : pySlice7 (formatDate (nextDate^[c] s)) = ymKey (nextDate^[c] s) :=
      pySlice7_formatDate _
    rw [buildDic_succ]
    by_cases hmem : pySlice7 (formatDate (nextDate^[c] s)) ∈ (buildDic s c).map Prod.fst
    · obtain ⟨i, hi, hki⟩ := ih4 _ hmem
      have hc1 : 1 ≤ c := by omega
      have hlast := ih5 (c - 1) (by omega)
      have hvi := (iter_nextDate s hs i).1
      have hvc := (iter_nextDate s hs c).1
      have hkeq : ymKey (nextDate^[i] s) = ymKey (nextDate^[c] s) := by
        rw [← hki, hkey]
      have hpair := ymKey_inj _ _ (hb i (by omega)) (hb c (by omega))
        (Nat.le_trans hvi.2.2.1 (by omega)) (Nat.le_trans hvc.2.2.1 (by omega)) hkeq
      have hmle1 := ymLe_iter s i (c - 1) (by omega)
      have hmle2 := ymLe_iter s (c - 1) c (by omega)
      have hpairlast : (nextDate^[c - 1] s).year = (nextDate^[c] s).year ∧
          (nextDate^[c - 1] s).month = (nextDate^[c] s).month := by
        unfold ymLe at hmle1 hmle2
        omega
      have hKlast : ymKey (nextDate^[c - 1] s) = ymKey (nextDate^[c] s) :=
        ymKey_congr _ _ hpairlast.1 hpairlast.2
      have hBne : buildDic s c ≠ [] := by
        intro hnil
        rw [hnil] at hmem
        simp at hmem
      have hsplit := List.dropLast_append_getLast hBne
      have hlastval : ((buildDic s c).getLast hBne).1 = ymKey (nextDate^[c - 1] s) := by
        rw [List.getLast?_eq_getLast _ hBne] at hlast
        simpa using hlast
      have hkeysplit : (buildDic s c).map Prod.fst =
          ((buildDic s c).dropLast).map Prod.fst ++ [((buildDic s c).getLast hBne).1] := by
        conv_lhs => rw [← hsplit]
        simp
      have hnotmem : ((buildDic s c).getLast hBne).1 ∉
          ((buildDic s c).dropLast).map Prod.fst := by
        intro hmemd
        have h2 := ih1
        rw [hkeysplit] at h2
        rcases List.nodup_append.mp h2 with ⟨-, -, hdisj⟩
        exact hdisj hmemd (by simp)
      have hKeq2 : pySlice7 (formatDate (nextDate^[c] s)) = ((buildDic s c).getLast hBne).1 := by
        rw [hkey, hlastval]
        exact hKlast.symm
      have hinsert : dicInsert (pySlice7 (formatDate (nextDate^[c] s)))
          (formatDate (nextDate^[c] s)) (buildDic s c) =
          (buildDic s c).dropLast ++
            [(((buildDic s c).getLast hBne).1,
              ((buildDic s c).getLast hBne).2 ++ [formatDate (nextDate^[c] s)])] := by
        conv_lhs => rw [← hsplit, hKeq2]
        exact dicInsert_last _ _ _ _ hnotmem
      rw [hinsert]
      have hflatB : ((buildDic s c).dropLast).bind Prod.snd ++
          ((buildDic s c).getLast hBne).2 =
          (List.range c).map (fun i => formatDate (nextDate^[i] s)) := by
        conv_rhs => rw [← ih2]
        conv_rhs => rw [← hsplit]
        simp
      refine ⟨?_, ?_, ?_, ?_, ?_⟩
      · have hkeys2 : ((buildDic s c).dropLast ++
            [(((buildDic s c).getLast hBne).1,
              ((buildDic s c).getLast hBne).2 ++ [formatDate (nextDate^[c] s)])]).map Prod.fst =
            (buildDic s c).map Prod.fst := by
          rw [hkeysplit]
          simp
        rw [hkeys2]
        exact ih1
      · rw [List.range_succ, List.map_append]
        simp only [List.append_bind, List.cons_bind, List.nil_bind, List.append_nil]
        rw [← hflatB]
        simp [List.append_assoc]
      · intro p hp
        rcases List.mem_append.mp hp with hpL | hpg
        · have hpB : p ∈ buildDic s c := by
            rw [← hsplit]
            exact List.mem_append_left _ hpL
          exact ih3 p hpB
        · rcases List.mem_singleton.mp hpg with rfl
          intro x hx
          rcases List.mem_append.mp hx with hxg | hxD
          · exact ih3 _ (List.getLast_mem hBne) x hxg
          · rcases List.mem_singleton.mp hxD with rfl
            exact hKeq2
      · intro k hk
        have hkeys2 : ((buildDic s c).dropLast ++
            [(((buildDic s c).getLast hBne).1,
              ((buildDic s c).getLast hBne).2 ++ [formatDate (nextDate^[c] s)])]).map Prod.fst =
            (buildDic s c).map Prod.fst := by
          rw [hkeysplit]
          simp
        rw [hkeys2] at hk
        obtain ⟨j, hj, hkj⟩ := ih4 k hk
        exact ⟨j, by omega, hkj⟩
      · intro c' hc'
        have : c' = c := by omega
        subst this
        rw [List.getLast?_concat]
        simp only [Option.map_some']
        rw [hlastval, hKlast]
    · rw [dicInsert_not_mem _ _ _ hmem]
      refine ⟨?_, ?_, ?_, ?_, ?_⟩
      · rw [List.map_append]
        simp only [List.map_cons, List.map_nil]
        rw [List.nodup_append]
        refine ⟨ih1, by simp, ?_⟩
        intro a ha hb2
        rcases List.mem_singleton.mp hb2 with rfl
        exact hmem ha
      · simp [List.append_bind, ih2, List.range_succ]
      · intro p hp
        rcases List.mem_append.mp hp with hpL | hpg
        · exact ih3 p hpL
        · rcases List.mem_singleton.mp hpg with rfl
          intro x hx
          rcases List.mem_singleton.mp hx with rfl
          rfl
      · intro k hk
        rw [List.map_append] at hk
        simp only [List.map_cons, List.map_nil] at hk
        rcases List.mem_append.mp hk with hkL | hkn
        · obtain ⟨j, hj, hkj⟩ := ih4 k hkL
          exact ⟨j, by omega, hkj⟩
        · rcases List.mem_singleton.mp hkn with rfl
          exact ⟨c, by omega, hkey.symm⟩
      · intro c' hc'
        have : c' = c := by omega
        subst this
        rw [List.getLast?_concat]
        simp only [Option.map_some']
        exact congrArg some hkey

/-- C3: for dates s ≤ e, the planner's month buckets, taken in mapping
order with each bucket's list flattened in order, reproduce exactly the
inclusive calendar-date sequence from s to e (consecutive calendar
successors starting at s and ending at e) with no duplicates, each date
grouped under its own year-month prefix and with pairwise-distinct bucket
keys; for s > e the result is an empty mapping, not an error. -/
theorem get_dates_month_buckets (s e : Date) (hs : ValidDate s) (he : ValidDate e)
    (hs1 : 1000 ≤ s.year) (hs2 : s.year ≤ 9999) (he1 : 1000 ≤ e.year) (he2 : e.year ≤ 9999) :
    ∃ B, get_dates (formatDate s) (formatDate e) = some B ∧
      (toOrdinal s ≤ toOrdinal e →
        B.bind Prod.snd = (dateSeq s (toOrdinal e + 1 - toOrdinal s)).map formatDate ∧
        nextDate^[toOrdinal e - toOrdinal s] s = e ∧
        (B.bind Prod.snd).Nodup ∧
        (B.map Prod.fst).Nodup ∧
        (∀ p ∈ B, ∀ x ∈ p.2, pySlice7 x = p.1)) ∧
      (toOrdinal e < toOrdinal s → B = []) := by
  have hps := parseYmd_formatDate s hs hs2
  have hpe := parseYmd_formatDate e he he2
  refine ⟨buildDic s ((toOrdinal e : Int) - (toOrdinal s : Int) + 1).toNat, ?_, ?_, ?_⟩
  · simp only [get_dates, hps, hpe, Option.bind_eq_bind, Option.some_bind]
  · intro hle
    have hN : ((toOrdinal e : Int) - (toOrdinal s : Int) + 1).toNat =
        toOrdinal e + 1 - toOrdinal s := by omega
    rw [hN]
    have hbound : ∀ i, i < toOrdinal e + 1 - toOrdinal s → (nextDate^[i] s).year ≤ 9999 := by
      intro i hi
      have hit := iter_nextDate s hs i
      have hyle := year_le_of_toOrdinal_le _ e hit.1 he (by omega)
      omega
    obtain ⟨c1, c2, c3, c4, c5⟩ :=
      buildDic_invariant s hs (toOrdinal e + 1 - toOrdinal s) hbound
        (toOrdinal e + 1 - toOrdinal s) (Nat.le_refl _)
    refine ⟨?_, ?_, ?_, c1, c3⟩
    · rw [c2]
      unfold dateSeq
      rw [List.map_map]
      rfl
    · exact iter_reaches s e hs he hle
    · rw [c2]
      refine List.Nodup.map_on ?_ (List.nodup_range _)
      intro i hi j hj hf
      rw [List.mem_range] at hi hj
      have hvi := iter_nextDate s hs i
      have hvj := iter_nextDate s hs j
      have hdi : nextDate^[i] s = nextDate^[j] s :=
        formatDate_inj _ _ hvi.1 hvj.1 (hbound i hi) (hbound j hj) hf
      have hoi := congrArg toOrdinal hdi
      rw [hvi.2, hvj.2] at hoi
      omega
  · intro hlt
    have hN : ((toOrdinal e : Int) - (toOrdinal s : Int) + 1).toNat = 0 := by omega
    rw [hN]
    rfl

/-- Witness for C3 at the spec's end-to-end scenario, the two-day range
2025-09-01 .. 2025-09-02. -/
theorem get_dates_month_buckets_witness :
    ∃ B, get_dates (formatDate ⟨2025, 9, 1⟩) (formatDate ⟨2025, 9, 2⟩) = some B ∧
      (toOrdinal ⟨2025, 9, 1⟩ ≤ toOrdinal ⟨2025, 9, 2⟩ →
        B.bind Prod.snd =
          (dateSeq ⟨2025, 9, 1⟩
            (toOrdinal ⟨2025, 9, 2⟩ + 1 - toOrdinal ⟨2025, 9, 1⟩)).map formatDate ∧
        nextDate^[toOrdinal ⟨2025, 9, 2⟩ - toOrdinal ⟨2025, 9, 1⟩] ⟨2025, 9, 1⟩ = ⟨2025, 9, 2⟩ ∧
        (B.bind Prod.snd).Nodup ∧
        (B.map Prod.fst).Nodup ∧
        (∀ p ∈ B, ∀ x ∈ p.2, pySlice7 x = p.1)) ∧
      (toOrdinal ⟨2025, 9, 2⟩ < toOrdinal ⟨2025, 9, 1⟩ → B = []) :=
  get_dates_month_buckets ⟨2025, 9, 1⟩ ⟨2025, 9, 2⟩ (by decide) (by decide)
    (by decide) (by decide) (by decide) (by decide)

/-! ## Theorems: station resolver -/

/-- Deduplication distributes over append: the second part is deduplicated
with the keys accepted from the first part added to the seen set. -/
theorem dedupByKey_append (l1 : List Cand) : ∀ (s : List String) (l2 : List Cand),
    dedupByKey s (l1 ++ l2) =
      dedupByKey s l1 ++ dedupByKey (s ++ (dedupByKey s l1).map candKey) l2 := by
  induction l1 with
  | nil => intro s l2; simp [dedupByKey]
  | cons a t ih =>
    intro s l2
    by_cases hmem : candKey a ∈ s
    · simp only [List.cons_append, dedupByKey, List.append_eq, if_pos hmem]
      exact ih s l2
    · simp only [List.cons_append, dedupByKey, List.append_eq, if_neg hmem]
      rw [ih (s ++ [candKey a]) l2]
      simp only [List.map_cons, List.cons_append, List.nil_append, List.append_nil,
        List.append_assoc, List.singleton_append]

/-- Transliteration distributes over append. -/
theorem enrichRows_append (l1 l2 : List Cand) :
    enrichRows (l1 ++ l2) =
      (enrichRows l1).bind (fun r1 => (enrichRows l2).map (fun r2 => r1 ++ r2)) := by
  induction l1 with
  | nil =>
    simp only [List.nil_append, enrichRows, Option.some_bind]
    cases enrichRows l2 <;> rfl
  | cons a t ih =>
    simp only [List.cons_append, enrichRows, List.append_eq, ih]
    cases lookupEn a.block_name with
    | none => rfl
    | some en =>
      cases enrichRows t with
      | none => rfl
      | some rt =>
        cases enrichRows l2 <;> rfl

/-- A failed transliteration of a prefix fails for the whole list. -/
theorem enrichRows_extend_none (acc ext : List Cand)
    (h : enrichRows (dedupByKey [] acc) = none) :
    enrichRows (dedupByKey [] (acc ++ ext)) = none := by
  rw [dedupByKey_append acc [] ext, enrichRows_append, h]
  rfl

/-- The candidate traversal of one block tag only appends. -/
theorem processBlockCL_extends (prec_no : Nat) (alt : Option String) (acc : List Cand)
    (b : AreaTag) (acc' : List Cand) (h : processBlockCL prec_no alt acc b = some acc') :
    ∃ ext, acc' = acc ++ ext := by
  unfold processBlockCL at h
  cases hp : parseBlockCand prec_no alt b with
  | none => rw [hp] at h; exact Option.noConfusion h
  | some oc =>
    rw [hp] at h
    cases oc with
    | none =>
      refine ⟨[], ?_⟩
      simp only [Option.some.injEq] at h
      rw [← h]
      simp
    | some c =>
      refine ⟨[c], ?_⟩
      simp only [Option.some.injEq] at h
      rw [← h]

/-- The candidate traversal of a block list only appends. -/
theorem blocksFoldCL_extends (prec_no : Nat) (alt : Option String) (bs : List AreaTag) :
    ∀ (acc acc' : List Cand),
      bs.foldlM (processBlockCL prec_no alt) acc = some acc' → ∃ ext, acc' = acc ++ ext := by
  induction bs with
  | nil =>
    intro acc acc' h
    rw [List.foldlM_nil] at h
    have h2 : acc = acc' := by simpa using h
    exact ⟨[], by rw [← h2, List.append_nil]⟩
  | cons b t ih =>
    intro acc acc' h
    rw [List.foldlM_cons] at h
    cases hb : processBlockCL prec_no alt acc b with
    | none => rw [hb] at h; exact Option.noConfusion h
    | some acc1 =>
      rw [hb] at h
      obtain ⟨e1, he1⟩ := processBlockCL_extends prec_no alt acc b acc1 hb
      obtain ⟨e2, he2⟩ := ih acc1 acc' h
      exact ⟨e1 ++ e2, by rw [he2, he1, List.append_assoc]⟩

/-- The candidate traversal of one prefecture tag only appends. -/
theorem processPrecCL_extends (bp : Nat → List AreaTag) (acc : List Cand) (p : AreaTag)
    (acc' : List Cand) (h : processPrecCL bp acc p = some acc') : ∃ ext, acc' = acc ++ ext := by
  unfold processPrecCL at h
  cases hh : p.href with
  | none => rw [hh] at h; exact Option.noConfusion h
  | some href =>
    simp only [hh] at h
    cases hpn : parsePrecNo href with
    | none =>
      simp only [hpn] at h
      exact Option.noConfusion h
    | some prec_no =>
      simp only [hpn] at h
      by_cases hant : p.alt = some "南極"
      · rw [if_pos hant] at h
        simp only [Option.some.injEq] at h
        exact ⟨[], by rw [← h]; simp⟩
      · rw [if_neg hant] at h
        exact blocksFoldCL_extends prec_no p.alt (bp prec_no) acc acc' h

/-- The candidate traversal of the prefecture list only appends. -/
theorem precsFoldCL_extends (bp : Nat → List AreaTag) (ps : List AreaTag) :
    ∀ (acc acc' : List Cand),
      ps.foldlM (processPrecCL bp) acc = some acc' → ∃ ext, acc' = acc ++ ext := by
  induction ps with
  | nil =>
    intro acc acc' h
    rw [List.foldlM_nil] at h
    have h2 : acc = acc' := by simpa using h
    exact ⟨[], by rw [← h2, List.append_nil]⟩
  | cons p t ih =>
    intro acc acc' h
    rw [List.foldlM_cons] at h
    cases hb : processPrecCL bp acc p with
    | none => rw [hb] at h; exact Option.noConfusion h
    | some acc1 =>
      rw [hb] at h
      obtain ⟨e1, he1⟩ := processPrecCL_extends bp acc p acc1 hb
      obtain ⟨e2, he2⟩ := ih acc1 acc' h
      exact ⟨e1 ++ e2, by rw [he2, he1, List.append_assoc]⟩

/-- A fold of appending steps only appends. -/
theorem foldC_extends {α : Type} (fC : List Cand → α → Option (List Cand))
    (hext : ∀ acc x acc', fC acc x = some acc' → ∃ ext, acc' = acc ++ ext) :
    ∀ (l : List α) (acc acc' : List Cand),
      l.foldlM fC acc = some acc' → ∃ ext, acc' = acc ++ ext := by
  intro l
  induction l with
  | nil =>
    intro acc acc' h
    rw [List.foldlM_nil] at h
    have h2 : acc = acc' := by simpa using h
    exact ⟨[], by rw [← h2, List.append_nil]⟩
  | cons x t ih =>
    intro acc acc' h
    rw [List.foldlM_cons] at h
    cases hb : fC acc x with
    | none => rw [hb] at h; exact Option.noConfusion h
    | some acc1 =>
      rw [hb] at h
      obtain ⟨e1, he1⟩ := hext acc x acc1 hb
      obtain ⟨e2, he2⟩ := ih acc1 acc' h
      exact ⟨e1 ++ e2, by rw [he2, he1, List.append_assoc]⟩

/-- Pairing a `get_master`-style fold with its candidate-list fold: when
every step either preserves the dedup/transliteration relation or fails in
a way the candidate side also explains, so does the whole fold. -/
theorem foldPair_inv {α : Type} (fG : GMState → α → Option GMState)
    (fC : List Cand → α → Option (List Cand))
    (hext : ∀ acc x acc', fC acc x = some acc' → ∃ ext, acc' = acc ++ ext)
    (hstep : ∀ x st acc,
      st.seen = (dedupByKey [] acc).map candKey →
      enrichRows (dedupByKey [] acc) = some st.rows →
      (∃ st' acc', fG st x = some st' ∧ fC acc x = some acc' ∧
          st'.seen = (dedupByKey [] acc').map candKey ∧
          enrichRows (dedupByKey [] acc') = some st'.rows) ∨
      (fG st x = none ∧
        ((∃ acc', fC acc x = some acc' ∧ enrichRows (dedupByKey [] acc') = none) ∨
          fC acc x = none))) :
    ∀ (l : List α) (st : GMState) (acc : List Cand),
      st.seen = (dedupByKey [] acc).map candKey →
      enrichRows (dedupByKey [] acc) = some st.rows →
      (∃ st' acc', l.foldlM fG st = some st' ∧ l.foldlM fC acc = some acc' ∧
          st'.seen = (dedupByKey [] acc').map candKey ∧
          enrichRows (dedupByKey [] acc') = some st'.rows) ∨
      (l.foldlM fG st = none ∧
        ((∃ acc', l.foldlM fC acc = some acc' ∧ enrichRows (dedupByKey [] acc') = none) ∨
          l.foldlM fC acc = none)) := by
  intro l
  induction l with
  | nil =>
    intro st acc hseen hrows
    exact Or.inl ⟨st, acc, by rw [List.foldlM_nil]; rfl, by rw [List.foldlM_nil]; rfl,
      hseen, hrows⟩
  | cons x t ih =>
    intro st acc hseen hrows
    rcases hstep x st acc hseen hrows with ⟨st1, acc1, hg, hc, hs1, hr1⟩ | ⟨hg, hrest⟩
    · have e1 : (x :: t).foldlM fG st = t.foldlM fG st1 := by
        rw [List.foldlM_cons, hg]; rfl
      have e2 : (x :: t).foldlM fC acc = t.foldlM fC acc1 := by
        rw [List.foldlM_cons, hc]; rfl
      rw [e1, e2]
      exact ih st1 acc1 hs1 hr1
    · have e1 : (x :: t).foldlM fG st = none := by
        rw [List.foldlM_cons, hg]; rfl
      rw [e1]
      refine Or.inr ⟨rfl, ?_⟩
      rcases hrest with ⟨acc1, hc, hfail⟩ | hcnone
      · have e2 : (x :: t).foldlM fC acc = t.foldlM fC acc1 := by
          rw [List.foldlM_cons, hc]; rfl
        rw [e2]
        cases hres : t.foldlM fC acc1 with
        | none => exact Or.inr rfl
        | some accF =>
          obtain ⟨ext, hext2⟩ := foldC_extends fC hext t acc1 accF hres
          exact Or.inl ⟨accF, rfl, by rw [hext2]; exact enrichRows_extend_none _ _ hfail⟩
      · have e2 : (x :: t).foldlM fC acc = none := by
          rw [List.foldlM_cons, hcnone]; rfl
        rw [e2]
        exact Or.inr rfl

/-- Deduplication of a single candidate. -/
theorem dedupByKey_single (s : List String) (c : Cand) :
    dedupByKey s [c] = if candKey c ∈ s then [] else [c] := by
  unfold dedupByKey
  split_ifs <;> rfl

/-- One block step preserves the dedup/transliteration relation, or fails
accountably. -/
theorem processBlock_step (prec_no : Nat) (alt : Option String) (b : AreaTag)
    (st : GMState) (acc : List Cand)
    (hseen : st.seen = (dedupByKey [] acc).map candKey)
    (hrows : enrichRows (dedupByKey [] acc) = some st.rows) :
    (∃ st' acc', processBlockGM prec_no alt st b = some st' ∧
        processBlockCL prec_no alt acc b = some acc' ∧
        st'.seen = (dedupByKey [] acc').map candKey ∧
        enrichRows (dedupByKey [] acc') = some st'.rows) ∨
    (processBlockGM prec_no alt st b = none ∧
      ((∃ acc', processBlockCL prec_no alt acc b = some acc' ∧
          enrichRows (dedupByKey [] acc') = none) ∨
        processBlockCL prec_no alt acc b = none)) := by
  cases hp : parseBlockCand prec_no alt b with
  | none =>
    exact Or.inr ⟨by simp only [processBlockGM, hp],
      Or.inr (by simp only [processBlockCL, hp])⟩
  | some oc =>
    cases oc with
    | none =>
      exact Or.inl ⟨st, acc, by simp only [processBlockGM, hp],
        by simp only [processBlockCL, hp], hseen, hrows⟩
    | some c =>
      have hCL : processBlockCL prec_no alt acc b = some (acc ++ [c]) := by
        simp only [processBlockCL, hp]
      have hda : dedupByKey [] (acc ++ [c]) =
          dedupByKey [] acc ++ dedupByKey ((dedupByKey [] acc).map candKey) [c] := by
        rw [dedupByKey_append acc [] [c], List.nil_append]
      by_cases hmem : candKey c ∈ st.seen
      · have hGM : processBlockGM prec_no alt st b = some st := by
          simp only [processBlockGM, hp]
          rw [if_pos hmem]
        have hd2 : dedupByKey [] (acc ++ [c]) = dedupByKey [] acc := by
          rw [hda, dedupByKey_single, if_pos (by rw [← hseen]; exact hmem), List.append_nil]
        exact Or.inl ⟨st, acc ++ [c], hGM, hCL, by rw [hd2]; exact hseen,
          by rw [hd2]; exact hrows⟩
      · have hd2 : dedupByKey [] (acc ++ [c]) = dedupByKey [] acc ++ [c] := by
          rw [hda, dedupByKey_single, if_neg (by rw [← hseen]; exact hmem)]
        cases hen : lookupEn c.block_name with
        | some en =>
          have hGM : processBlockGM prec_no alt st b =
              some ⟨st.seen ++ [candKey c],
                st.rows ++
                  [⟨c.prec_no, c.prec_name, c.block_no, c.block_name, en, c.lat, c.lng⟩]⟩ := by
            simp only [processBlockGM, hp]
            rw [if_neg hmem, hen]
          refine Or.inl ⟨_, acc ++ [c], hGM, hCL, ?_, ?_⟩
          · show st.seen ++ [candKey c] = (dedupByKey [] (acc ++ [c])).map candKey
            rw [hd2, List.map_append, ← hseen]
            rfl
          · show enrichRows (dedupByKey [] (acc ++ [c])) = some (st.rows ++
              [⟨c.prec_no, c.prec_name, c.block_no, c.block_name, en, c.lat, c.lng⟩])
            rw [hd2, enrichRows_append, hrows]
            have he1 : enrichRows [c] =
                some [⟨c.prec_no, c.prec_name, c.block_no, c.block_name, en, c.lat, c.lng⟩] := by
              simp only [enrichRows]
              rw [hen]
              rfl
            rw [he1]
            rfl
        | none =>
          refine Or.inr ⟨?_, Or.inl ⟨acc ++ [c], hCL, ?_⟩⟩
          · simp only [processBlockGM, hp]
            rw [if_neg hmem, hen]
          · rw [hd2, enrichRows_append, hrows]
            have he1 : enrichRows [c] = none := by
              simp only [enrichRows]
              rw [hen]
            rw [he1]
            rfl

/-- One prefecture step preserves the dedup/transliteration relation, or
fails accountably. -/
theorem processPrec_step (bp : Nat → List AreaTag) (p : AreaTag)
    (st : GMState) (acc : List Cand)
    (hseen : st.seen = (dedupByKey [] acc).map candKey)
    (hrows : enrichRows (dedupByKey [] acc) = some st.rows) :
    (∃ st' acc', processPrecGM bp st p = some st' ∧
        processPrecCL bp acc p = some acc' ∧
        st'.seen = (dedupByKey [] acc').map candKey ∧
        enrichRows (dedupByKey [] acc') = some st'.rows) ∨
    (processPrecGM bp st p = none ∧
      ((∃ acc', processPrecCL bp acc p = some acc' ∧
          enrichRows (dedupByKey [] acc') = none) ∨
        processPrecCL bp acc p = none)) := by
  cases hh : p.href with
  | none =>
    exact Or.inr ⟨by simp only [processPrecGM, hh],
      Or.inr (by simp only [processPrecCL, hh])⟩
  | some href =>
    cases hpn : parsePrecNo href with
    | none =>
      exact Or.inr ⟨by simp only [processPrecGM, hh, hpn],
        Or.inr (by simp only [processPrecCL, hh, hpn])⟩
    | some prec_no =>
      by_cases hant : p.alt = some "南極"
      · refine Or.inl ⟨st, acc, ?_, ?_, hseen, hrows⟩
        · simp only [processPrecGM, hh, hpn]
          rw [if_pos hant]
        · simp only [processPrecCL, hh, hpn]
          rw [if_pos hant]
      · have hG : processPrecGM bp st p =
            (bp prec_no).foldlM (processBlockGM prec_no p.alt) st := by
          simp only [processPrecGM, hh, hpn]
          rw [if_neg hant]
        have hC : processPrecCL bp acc p =
            (bp prec_no).foldlM (processBlockCL prec_no p.alt) acc := by
          simp only [processPrecCL, hh, hpn]
          rw [if_neg hant]
        rw [hG, hC]
        exact foldPair_inv _ _ (processBlockCL_extends prec_no p.alt)
          (processBlock_step prec_no p.alt) (bp prec_no) st acc hseen hrows

/-- Bridge: `get_master` is the candidate traversal followed by
first-match-wins deduplication and transliteration. -/
theorem get_master_eq_candidates (H : Hierarchy) :
    get_master H = (stationCandidates H).bind (fun cs => enrichRows (dedupByKey [] cs)) := by
  have h := foldPair_inv (processPrecGM H.blocksPage) (processPrecCL H.blocksPage)
    (processPrecCL_extends H.blocksPage) (processPrec_step H.blocksPage)
    H.precsPage ⟨[], []⟩ [] rfl rfl
  unfold get_master stationCandidates
  rcases h with ⟨st', acc', hg, hc, hs, hr⟩ | ⟨hg, hrest⟩
  · rw [hg, hc]
    simp only [Option.bind_eq_bind, Option.some_bind]
    rw [hr]
  · rw [hg]
    simp only [Option.bind_eq_bind, Option.none_bind]
    rcases hrest with ⟨acc', hc, hfail⟩ | hcnone
    · rw [hc]
      simp only [Option.some_bind]
      exact hfail.symm
    · rw [hcnone]
      rfl

/-- No deduplicated candidate carries an already-seen key. -/
theorem dedup_filter_mem (key : String) : ∀ (l : List Cand) (s : List String), key ∈ s →
    (dedupByKey s l).filter (fun c => candKey c = key) = [] := by
  intro l
  induction l with
  | nil => intro s _; rfl
  | cons a t ih =>
    intro s hk
    by_cases hmem : candKey a ∈ s
    · simp only [dedupByKey, if_pos hmem]
      exact ih s hk
    · simp only [dedupByKey, if_neg hmem]
      have hne : candKey a ≠ key := fun h => hmem (h ▸ hk)
      rw [List.filter_cons]
      simp only [hne, decide_False, Bool.false_eq_true, if_false]
      exact ih (s ++ [candKey a]) (List.mem_append_left _ hk)

/-- Deduplicated candidates keep exactly the first entry of each unseen
key. -/
theorem dedup_filter_first (key : String) : ∀ (l : List Cand) (s : List String), key ∉ s →
    (dedupByKey s l).filter (fun c => candKey c = key) =
      (l.filter (fun c => candKey c = key)).take 1 := by
  intro l
  induction l with
  | nil => intro s _; rfl
  | cons a t ih =>
    intro s hk
    by_cases hmem : candKey a ∈ s
    · have hne : candKey a ≠ key := fun h => hk (h ▸ hmem)
      simp only [dedupByKey, if_pos hmem]
      rw [ih s hk, List.filter_cons]
      simp only [hne, decide_False, Bool.false_eq_true, if_false]
    · simp only [dedupByKey, if_neg hmem]
      by_cases hak : candKey a = key
      · rw [List.filter_cons, List.filter_cons]
        simp only [hak, decide_True, if_true]
        rw [dedup_filter_mem key t (s ++ [key]) (by simp)]
        simp
      · rw [List.filter_cons, List.filter_cons]
        simp only [hak, decide_False, Bool.false_eq_true, if_false]
        exact ih (s ++ [candKey a]) (by simp [hak, hk]; intro h; exact hak h.symm)

/-- Transliterated rows project back to the candidates they came from. -/
theorem enrichRows_map_cand : ∀ (l : List Cand) (rs : List MRow), enrichRows l = some rs →
    rs.map mrowToCand = l := by
  intro l
  induction l with
  | nil =>
    intro rs h
    simp only [enrichRows, Option.some.injEq] at h
    rw [← h]
    rfl
  | cons c t ih =>
    intro rs h
    simp only [enrichRows] at h
    cases hen : lookupEn c.block_name with
    | none => rw [hen] at h; exact Option.noConfusion h
    | some en =>
      rw [hen] at h
      cases hrt : enrichRows t with
      | none => rw [hrt] at h; exact Option.noConfusion h
      | some rt =>
        rw [hrt] at h
        simp only [Option.map_some', Option.some.injEq] at h
        rw [← h, List.map_cons, ih rt hrt]
        rfl

/-- Filtering master rows by key then dropping the transliteration equals
dropping the transliteration then filtering candidates by key. -/
theorem mrow_filter_map (key : String) (l : List MRow) :
    (l.filter (fun r => mrowKey r = key)).map mrowToCand =
      (l.map mrowToCand).filter (fun c => candKey c = key) := by
  induction l with
  | nil => rfl
  | cons r t ih =>
    rw [List.map_cons, List.filter_cons, List.filter_cons]
    have hk : candKey (mrowToCand r) = mrowKey r := rfl
    by_cases h : mrowKey r = key
    · simp only [h, hk, decide_True, if_true, List.map_cons, ih]
    · simp only [h, hk, decide_False, Bool.false_eq_true, if_false, ih]

/-- C7: when two or more station candidates of the hierarchy share a
composite key (region name :: station name), the master table contains
exactly one row for that key, and that row corresponds to the first
candidate encountered in traversal order; later duplicates are silently
dropped. -/
theorem get_master_dedup_first (H : Hierarchy) (rows : List MRow) (cands : List Cand)
    (key : String)
    (hm : get_master H = some rows) (hc : stationCandidates H = some cands)
    (hdup : 2 ≤ (cands.filter (fun c => candKey c = key)).length) :
    (rows.filter (fun r => mrowKey r = key)).map mrowToCand =
      (cands.filter (fun c => candKey c = key)).take 1 ∧
    (rows.filter (fun r => mrowKey r = key)).length = 1 := by
  have hb := get_master_eq_candidates H
  rw [hm, hc] at hb
  simp only [Option.bind_eq_bind, Option.some_bind] at hb
  have he : enrichRows (dedupByKey [] cands) = some rows := hb.symm
  have hmap := enrichRows_map_cand _ _ he
  have h1 : (rows.filter (fun r => mrowKey r = key)).map mrowToCand =
      (cands.filter (fun c => candKey c = key)).take 1 := by
    rw [mrow_filter_map, hmap]
    exact dedup_filter_first key cands [] (by simp)
  refine ⟨h1, ?_⟩
  have h2 := congrArg List.length h1
  rw [List.length_map, List.length_take] at h2
  omega

/-- Witness for C7 at the sample hierarchy carrying a duplicated
石狩地方::札幌 entry. -/
theorem get_master_dedup_first_witness :
    2 ≤ (((stationCandidates sampleHierarchy).getD []).filter
        (fun c => candKey c = "石狩地方::札幌")).length ∧
    ((((get_master sampleHierarchy).getD []).filter
        (fun r => mrowKey r = "石狩地方::札幌")).map mrowToCand =
      (((stationCandidates sampleHierarchy).getD []).filter
        (fun c => candKey c = "石狩地方::札幌")).take 1 ∧
    (((get_master sampleHierarchy).getD []).filter
        (fun r => mrowKey r = "石狩地方::札幌")).length = 1) := by
  have h1 : get_master sampleHierarchy = some ((get_master sampleHierarchy).getD []) := rfl
  have h2 : stationCandidates sampleHierarchy =
      some ((stationCandidates sampleHierarchy).getD []) := rfl
  have hdup : 2 ≤ (((stationCandidates sampleHierarchy).getD []).filter
      (fun c => candKey c = "石狩地方::札幌")).length := by decide
  exact ⟨hdup, get_master_dedup_first sampleHierarchy _ _ "石狩地方::札幌" h1 h2 hdup⟩

/-! ## Theorems: validation export -/

/-- C1 (failing evaluation): with two stations over one day — station
(1, 1) labelled "a" with the numeric 気温 value "1.0" and station (1, 2)
labelled "b" with the non-numeric value "--" — the table written by the
`output_valid` branch of `validate_column` carries the columns
`timestamp, temp_a, temp_b`: the column of station b appears although b
has a missing value, while the computed valid-station count `n_blocks`
(used in the output filename) is 1.  The source computes `valid_weather`
but passes `weather` to `reshape_weather`, so the export is not restricted
to stations with zero missing values as the specification states. -/
theorem validate_export_keeps_missing_station :
    is_numeric "--" = false ∧
    (validate_column_export
        [⟨"1", "1", "20250901", "1", [("気温", "1.0")]⟩,
         ⟨"1", "2", "20250901", "1", [("気温", "--")]⟩]
        [⟨"1", "1", "a"⟩, ⟨"1", "2", "b"⟩] "気温").map (fun x => (x.1, x.2.1)) =
      some (1, ["timestamp", "temp_a", "temp_b"]) ∧
    "temp_b" ∈ ((validate_column_export
        [⟨"1", "1", "20250901", "1", [("気温", "1.0")]⟩,
         ⟨"1", "2", "20250901", "1", [("気温", "--")]⟩]
        [⟨"1", "1", "a"⟩, ⟨"1", "2", "b"⟩] "気温").map (fun x => x.2.1)).getD [] :=
  ⟨by decide, rfl, by decide⟩
